import Mathlib

/-!
# migrate-gitlab-groups: group replication, retry policy and project pipeline

A shallow embedding of `main.go`.  The remote GitLab servers are black boxes:
every call to them is an oracle whose answer the theorems quantify over, and
every call the program issues is appended to a trace so that statements about
"which calls were made, in which order, with which arguments" can be phrased.
-/

namespace Migrate

/-! ## Data model -/

/-- The fields of `gitlab.Group` that `main.go` reads.  Source and target
groups have the same Go type. -/
structure Group where
  ID : Int
  ParentID : Int
  FullPath : String
  Name : String
  Path : String
  Description : String
  Visibility : String
deriving DecidableEq, Repr

/-- The struct `targetGroupSt` (lines 26-29): a target id and a group pointer. -/
structure targetGroupSt where
  ID : Int
  Group : Group
deriving DecidableEq, Repr

/-- The Go map `map[int]*targetGroupSt`.  A key is absent (`none`), or present
with a pointer that is nil (`some none`) or not (`some (some v)`). -/
abbrev GroupMap := Int → Option (Option targetGroupSt)

/-- The map assignment `groupMap[k] = v`. -/
def GroupMap.set (m : GroupMap) (k : Int) (v : Option targetGroupSt) : GroupMap :=
  fun j => if j = k then some v else m j

/-- The map read `groupMap[k]` without the `ok` flag: nil when the key is absent. -/
def GroupMap.read (m : GroupMap) (k : Int) : Option targetGroupSt :=
  match m k with
  | some v => v
  | none => none

/-- The global `targetNamespace` (line 23). -/
def targetNamespace : String := "ramooz"

/-- The request body built by `createGroup` (lines 226-232). -/
structure CreateGroupOptions where
  Name : String
  Path : String
  Description : String
  Visibility : String
  ParentID : Int
deriving DecidableEq, Repr

/-- The target server as seen through `client.Groups`: each call answers a
group or an error (`none`) and moves the server to a new state. -/
structure TargetClient (σ : Type) where
  CreateGroup : σ → CreateGroupOptions → Option Group × σ
  GetGroup : σ → String → Option Group × σ

/-- What `createAllGroupsInTarget` does to the outside world and to the map,
in program order.  `src` is the source group whose loop iteration issued the
call; `old` is what the map held under the key just before the assignment. -/
inductive Event where
  | create (src : Group) (opt : CreateGroupOptions) (res : Option Group)
  | fetch (src : Group) (path : String) (res : Option Group)
  | store (key : Int) (val : Option targetGroupSt) (old : Option (Option targetGroupSt))
deriving DecidableEq, Repr

/-- The mutable state threaded through `createAllGroupsInTarget`. -/
structure RunState (σ : Type) where
  groupMap : GroupMap
  remote : σ
  trace : List Event

/-- How a run ends: normally, or by a nil-pointer dereference (a Go panic);
`outOfFuel` stands for a Go program that is still running, because the budget
of the model is used up or because a call it made does not return. -/
inductive Outcome (α : Type) where
  | done (a : α)
  | nilDeref
  | outOfFuel

/-- The assignment `groupMap[k] = v`, recorded in the trace. -/
def RunState.store {σ : Type} (s : RunState σ) (k : Int) (v : Option targetGroupSt) :
    RunState σ :=
  { s with groupMap := s.groupMap.set k v, trace := s.trace ++ [Event.store k v (s.groupMap k)] }

/-! ## Group replication -/

/-- The function `isPersonalNamespace` (lines 157-159). -/
def isPersonalNamespace (_group : Group) : Bool := false

/-- Lines 109-112: `fullPath` with a leading `"ramooz/"` removed.  The prefix
is seven one-byte characters, so the byte slice `fullPath[7:]` drops exactly
those seven characters. -/
def relativePath (fullPath : String) : String :=
  if "ramooz/".data.isPrefixOf fullPath.data then String.mk (fullPath.data.drop 7) else fullPath

/-- The request `createGroup` builds for a source group and a parent id
(lines 226-232). -/
def createOptions (sourceGroup : Group) (parentID : Int) : CreateGroupOptions :=
  { Name := sourceGroup.Name, Path := sourceGroup.Path,
    Description := sourceGroup.Description, Visibility := sourceGroup.Visibility,
    ParentID := parentID }

/-- The function `createGroup` (lines 225-240). -/
def createGroup {σ : Type} (client : TargetClient σ) (r : σ) (sourceGroup : Group)
    (parentID : Int) : Option Group × σ :=
  client.CreateGroup r (createOptions sourceGroup parentID)

/-- The function `getGroup` (lines 160-165). -/
def getGroup {σ : Type} (client : TargetClient σ) (r : σ) (groupPath : String) :
    Option Group × σ :=
  client.GetGroup r groupPath

/-- One iteration of the loop of `createAllGroupsInTarget` (lines 95-130) for
the element `sourceGroup`; `recur` is the recursive call of lines 115 and 130. -/
def loopBody {σ : Type} (client : TargetClient σ)
    (recur : RunState σ → Int → Outcome (RunState σ)) (parentId : Int)
    (s : RunState σ) (sourceGroup : Group) : Outcome (RunState σ) :=
  if sourceGroup.ParentID ≠ parentId then Outcome.done s
  else if isPersonalNamespace sourceGroup then Outcome.done s
  else
    match s.groupMap sourceGroup.ParentID with
    | none => Outcome.done s
    | some targetParent =>
      let fullPath := relativePath sourceGroup.FullPath
      if fullPath = "ramooz" then
        recur (s.store sourceGroup.ID (s.groupMap.read 0)) sourceGroup.ID
      else
        match targetParent with
        | none => Outcome.nilDeref
        | some tp =>
          match createGroup client s.remote sourceGroup tp.ID with
          | (some targetGroup, r) =>
            recur
              (RunState.store
                { s with remote := r
                         trace := s.trace ++
                           [Event.create sourceGroup (createOptions sourceGroup tp.ID)
                             (some targetGroup)] }
                sourceGroup.ID (some ⟨targetGroup.ID, sourceGroup⟩))
              sourceGroup.ID
          | (none, r) =>
            let path := targetNamespace ++ "/" ++ fullPath
            match getGroup client r path with
            | (some targetGroup, r2) =>
              recur
                (RunState.store
                  { s with remote := r2
                           trace := s.trace ++
                             [Event.create sourceGroup (createOptions sourceGroup tp.ID) none,
                              Event.fetch sourceGroup path (some targetGroup)] }
                  sourceGroup.ID (some ⟨targetGroup.ID, sourceGroup⟩))
                sourceGroup.ID
            | (none, r2) =>
              Outcome.done
                { s with remote := r2
                         trace := s.trace ++
                           [Event.create sourceGroup (createOptions sourceGroup tp.ID) none,
                            Event.fetch sourceGroup path none] }

/-- The `for _, sourceGroup := range ...` loop over the elements still to be
visited. -/
def rangeLoop {σ : Type} (client : TargetClient σ)
    (recur : RunState σ → Int → Outcome (RunState σ)) (parentId : Int) :
    List Group → RunState σ → Outcome (RunState σ)
  | [], s => Outcome.done s
  | g :: rest, s =>
    match loopBody client recur parentId s g with
    | Outcome.done s2 => rangeLoop client recur parentId rest s2
    | Outcome.nilDeref => Outcome.nilDeref
    | Outcome.outOfFuel => Outcome.outOfFuel

/-- The function `createAllGroupsInTarget` (lines 92-132).  `fuel` bounds the
depth of the recursion, which Go does not bound. -/
def createAllGroupsInTarget {σ : Type} (client : TargetClient σ) (sourceGroups : List Group) :
    Nat → RunState σ → Int → Outcome (RunState σ)
  | 0, _, _ => Outcome.outOfFuel
  | fuel + 1, s, parentId =>
    rangeLoop client (createAllGroupsInTarget client sourceGroups fuel) parentId sourceGroups s

/-- Lines 59-60 of `main`: the map holding only the root entry under key 0. -/
def seedMap (root : targetGroupSt) : GroupMap :=
  fun k => if k = 0 then some (some root) else none

/-- The state in which `main` calls `createAllGroupsInTarget` (line 61). -/
def seedState {σ : Type} (root : targetGroupSt) (r : σ) : RunState σ :=
  { groupMap := seedMap root, remote := r, trace := [] }

/-- Lines 59-61 of `main`: seed the map and replicate from parent id 0. -/
def replicate {σ : Type} (client : TargetClient σ) (sourceGroups : List Group)
    (root : targetGroupSt) (r : σ) (fuel : Nat) : Outcome (RunState σ) :=
  createAllGroupsInTarget client sourceGroups fuel (seedState root r) 0

/-! ## Retry policy -/

/-- The part of `http.Response` that `main.go` reads. -/
structure Response where
  StatusCode : Int
  Body : String
deriving DecidableEq, Repr

/-- The answer of `client.Do(req)`: a response, or a transport-level error. -/
inductive DoResult where
  | response (resp : Response)
  | failure (err : String)
deriving DecidableEq, Repr

/-- The two errors `importWithRetry` returns (lines 141 and 154). -/
inductive RetryError where
  | attemptFailed (attempt : Nat) (cause : String)
  | tooMany429
deriving DecidableEq, Repr

/-- What `importWithRetry` does, in program order: the `attempt`-th call of
`client.Do`, and `time.Sleep(d)` with `d` in nanoseconds. -/
inductive RetryEvent where
  | attempt (n : Nat)
  | sleep (d : Int)
deriving DecidableEq, Repr

/-- The pair `(*http.Response, error)` returned by `importWithRetry`, with
the trace of what it did. -/
structure RetryRun where
  result : Except RetryError Response
  trace : List RetryEvent

/-- One second as a `time.Duration`: the number of nanoseconds. -/
def second : Int := 1000000000

/-- Arithmetic of `time.Duration`, a signed 64-bit integer. -/
def wrap64 (x : Int) : Int := (x + 2 ^ 63) % 2 ^ 64 - 2 ^ 63

/-- The constant `maxRetries` (line 134). -/
def maxRetries : Nat := 5

/-- The loop of lines 138-152.  `answer n` is what the endpoint answers to
the `n`-th attempt; `remaining` counts the iterations left before `attempt`
exceeds `maxRetries`. -/
def retryLoop (answer : Nat → DoResult) :
    Nat → Nat → Int → List RetryEvent → RetryRun
  | 0, _, _, tr => ⟨Except.error RetryError.tooMany429, tr⟩
  | remaining + 1, attempt, delay, tr =>
    match answer attempt with
    | DoResult.failure err =>
      ⟨Except.error (RetryError.attemptFailed attempt err), tr ++ [RetryEvent.attempt attempt]⟩
    | DoResult.response resp =>
      if resp.StatusCode = 429 then
        retryLoop answer remaining (attempt + 1) (wrap64 (delay * 2))
          (tr ++ [RetryEvent.attempt attempt, RetryEvent.sleep delay])
      else ⟨Except.ok resp, tr ++ [RetryEvent.attempt attempt]⟩

/-- The function `importWithRetry` (lines 133-155). -/
def importWithRetry (answer : Nat → DoResult) : RetryRun :=
  retryLoop answer maxRetries 1 (wrap64 (10 * second)) []

/-- The number of calls of `client.Do` in a trace. -/
def attemptCount (tr : List RetryEvent) : Nat :=
  (tr.filter fun e => match e with
    | RetryEvent.attempt _ => true
    | RetryEvent.sleep _ => false).length

/-- The durations slept, in order. -/
def sleepsOf (tr : List RetryEvent) : List Int :=
  tr.filterMap fun e => match e with
    | RetryEvent.attempt _ => none
    | RetryEvent.sleep d => some d

/-! ## Project pipeline -/

/-- The fields of `gitlab.Project` that `main.go` reads. -/
structure Project where
  ID : Int
  Name : String
  Path : String
  PathWithNamespace : String
deriving DecidableEq, Repr

/-- The answers of everything `importProject` calls.  `exportStatus n` is the
result of the `n`-th status poll (counting from 0): a status, or `none` for a
status-check error. -/
structure Pipeline where
  getTargetGroup : Int → Option Group
  scheduleExport : Int → Bool
  exportStatus : Nat → Int → Option String
  exportDownload : Int → Option (List Nat)
  createTemp : Option String
  writeTemp : Bool
  openTemp : Bool
  createFormFile : Bool
  copyFile : Bool
  newRequest : Bool
  answer : Nat → DoResult

/-- What `importProject` does, in program order. -/
inductive Step where
  | getGroup (id : Int)
  | scheduleExport (project : Int)
  | poll (project : Int)
  | sleep (d : Int)
  | download (project : Int)
  | createTemp
  | writeTemp
  | openTemp
  | form (name path nspace : String)
  | send (e : RetryEvent)
  | closeBody
  | closeFile
  | closeTemp
  | removeTemp
deriving DecidableEq, Repr

/-- The error returns of `importProject`, one per `fmt.Errorf` site. -/
inductive ProjectError where
  | invalidGroup
  | schedule
  | statusCheck
  | download
  | createTemp
  | writeTemp
  | openTemp
  | formFile
  | copyFile
  | newRequest
  | request (e : RetryError)
  | importFailed (body : String)
deriving DecidableEq, Repr

/-- The polling loop of lines 287-296; `n` polls have been made so far.  The
Go loop has no bound; `fuel` bounds the number of polls of the model. -/
def pollLoop (env : Pipeline) (project : Int) :
    Nat → Nat → List Step → Outcome (Option ProjectError × List Step)
  | 0, _, _ => Outcome.outOfFuel
  | fuel + 1, n, tr =>
    match env.exportStatus n project with
    | none => Outcome.done (some ProjectError.statusCheck, tr ++ [Step.poll project])
    | some status =>
      if status = "finished" then Outcome.done (none, tr ++ [Step.poll project])
      else pollLoop env project fuel (n + 1) (tr ++ [Step.poll project, Step.sleep second])

/-- Lines 312-359 of `importProject`, after the temporary file was created;
the deferred calls are appended by the caller. -/
def uploadExport (env : Pipeline) (project : Project) (targetGroup : Group)
    (tr : List Step) : Option ProjectError × List Step :=
  if !env.writeTemp then (some ProjectError.writeTemp, tr ++ [Step.writeTemp])
  else if !env.openTemp then
    (some ProjectError.openTemp, tr ++ [Step.writeTemp, Step.openTemp])
  else
    let tr1 := tr ++ [Step.writeTemp, Step.openTemp,
      Step.form project.Name project.Path targetGroup.FullPath]
    if !env.createFormFile then (some ProjectError.formFile, tr1 ++ [Step.closeFile])
    else if !env.copyFile then (some ProjectError.copyFile, tr1 ++ [Step.closeFile])
    else if !env.newRequest then (some ProjectError.newRequest, tr1 ++ [Step.closeFile])
    else
      let run := importWithRetry env.answer
      let tr2 := tr1 ++ run.trace.map Step.send
      match run.result with
      | Except.error e => (some (ProjectError.request e), tr2 ++ [Step.closeFile])
      | Except.ok resp =>
        if resp.StatusCode ≥ 300 then
          (some (ProjectError.importFailed resp.Body), tr2 ++ [Step.closeBody, Step.closeFile])
        else (none, tr2 ++ [Step.closeBody, Step.closeFile])

/-- The function `importProject` (lines 272-360): the returned error (`none`
for `nil`) and the trace. -/
def importProject (env : Pipeline) (project : Project) (targetGroupID : Int) (fuel : Nat) :
    Outcome (Option ProjectError × List Step) :=
  match env.getTargetGroup targetGroupID with
  | none => Outcome.done (some ProjectError.invalidGroup, [Step.getGroup targetGroupID])
  | some targetGroup =>
    let tr0 := [Step.getGroup targetGroupID, Step.scheduleExport project.ID]
    if !env.scheduleExport project.ID then Outcome.done (some ProjectError.schedule, tr0)
    else
      match pollLoop env project.ID fuel 0 tr0 with
      | Outcome.outOfFuel => Outcome.outOfFuel
      | Outcome.nilDeref => Outcome.nilDeref
      | Outcome.done (some e, tr) => Outcome.done (some e, tr)
      | Outcome.done (none, tr) =>
        match env.exportDownload project.ID with
        | none => Outcome.done (some ProjectError.download, tr ++ [Step.download project.ID])
        | some _ =>
          match env.createTemp with
          | none =>
            Outcome.done
              (some ProjectError.createTemp, tr ++ [Step.download project.ID, Step.createTemp])
          | some _ =>
            let res := uploadExport env project targetGroup
              (tr ++ [Step.download project.ID, Step.createTemp])
            Outcome.done (res.1, res.2 ++ [Step.closeTemp, Step.removeTemp])

/-! ## The project loop of `main` -/

/-- What the project loop calls: `getGroupProjects` and `importProject`, as
seen from `main`.  The first argument is the number of calls the loop issued
before this one, so an answer may depend on everything that happened so far;
`none` stands for a call that does not return (both functions contain an
unbounded loop).  For `getGroupProjects` the inner option is the listing, or
`none` for an error; for `importProject` the flag tells whether it returned
`nil`. -/
structure Services where
  getGroupProjects : Nat → Int → Option (Option (List Project))
  (importProject : Nat → Project → Int → Option Bool)

/-- What the project loop does, in program order: a call of `getGroupProjects`
for a source group, and a call of `importProject` for a project of that group
with the target group id passed.  An event is recorded when the call is
issued. -/
inductive MainEvent where
  | listCall (g : Group)
  | importCall (g : Group) (project : Project) (targetGroupID : Int)
deriving DecidableEq, Repr

/-- How the project loop ends: it runs to its end, it panics on a nil pointer,
or it is stuck in a call that does not return. -/
inductive LoopEnd where
  | finished
  | nilDeref
  | stuck
deriving DecidableEq, Repr

/-- The inner loop of `main` (lines 81-88), from the trace `tr` of the calls
issued so far.  `targetGroup` is the pointer read from the map; it is
dereferenced for each project. -/
def importLoop (svc : Services) (sourceGroup : Group) (targetGroup : Option targetGroupSt) :
    List Project → List MainEvent → List MainEvent × LoopEnd
  | [], tr => (tr, LoopEnd.finished)
  | project :: rest, tr =>
    match targetGroup with
    | none => (tr, LoopEnd.nilDeref)
    | some tg =>
      match svc.importProject tr.length project tg.ID with
      | none => (tr ++ [MainEvent.importCall sourceGroup project tg.ID], LoopEnd.stuck)
      | some _ =>
        importLoop svc sourceGroup targetGroup rest
          (tr ++ [MainEvent.importCall sourceGroup project tg.ID])

/-- The outer loop of `main` (lines 64-89), from the trace `tr` of the calls
issued so far. -/
def projectLoop (svc : Services) (groupMap : GroupMap) :
    List Group → List MainEvent → List MainEvent × LoopEnd
  | [], tr => (tr, LoopEnd.finished)
  | sourceGroup :: rest, tr =>
    if isPersonalNamespace sourceGroup then projectLoop svc groupMap rest tr
    else
      match groupMap sourceGroup.ID with
      | none => projectLoop svc groupMap rest tr
      | some targetGroup =>
        match svc.getGroupProjects tr.length sourceGroup.ID with
        | none => (tr ++ [MainEvent.listCall sourceGroup], LoopEnd.stuck)
        | some none => projectLoop svc groupMap rest (tr ++ [MainEvent.listCall sourceGroup])
        | some (some projects) =>
          match importLoop svc sourceGroup targetGroup projects
              (tr ++ [MainEvent.listCall sourceGroup]) with
          | (tr2, LoopEnd.finished) => projectLoop svc groupMap rest tr2
          | (tr2, LoopEnd.nilDeref) => (tr2, LoopEnd.nilDeref)
          | (tr2, LoopEnd.stuck) => (tr2, LoopEnd.stuck)

/-! ## Vocabulary of the replication theorems -/

/-- Line 113: the source group is an alias of the target root. -/
def isAlias (g : Group) : Prop := relativePath g.FullPath = "ramooz"

/-- The path of the fallback lookup of line 122. -/
def fetchPath (g : Group) : String :=
  targetNamespace ++ "/" ++ relativePath g.FullPath

/-- Group `x` of the list is reached from the id `p` by following `ParentID`
links upwards: `x` is a proper descendant of `p`. -/
inductive Below (G : List Group) (p : Int) : Group → Prop where
  | child {g : Group} : g ∈ G → g.ParentID = p → Below G p g
  | step {h g : Group} : Below G p h → g ∈ G → g.ParentID = h.ID → Below G p g

/-- No proper descendant of `p` carries the id `p` itself. -/
def Acyclic (G : List Group) (p : Int) : Prop := ∀ x, Below G p x → x.ID ≠ p

/-- The subtree hanging off the group `g`: `g` and its proper descendants. -/
def Subtree (G : List Group) (g : Group) (x : Group) : Prop := x = g ∨ Below G g.ID x

/-- The subtrees of those children of `p` that occur in the list `L`. -/
def Region (G L : List Group) (p : Int) (x : Group) : Prop :=
  ∃ g, g ∈ L ∧ g.ParentID = p ∧ Subtree G g x

/-- The id of the source group of a create call, for counting create calls. -/
def createdId : Event → Option Int
  | Event.create x _ _ => some x.ID
  | _ => none

/-- The event is a fallback lookup that failed. -/
def failedFetch : Event → Bool
  | Event.fetch _ _ none => true
  | _ => false

/-- No key of the map holds a nil pointer. -/
def NoNil {σ : Type} (s : RunState σ) : Prop := ∀ k, s.groupMap k ≠ some none

/-- No group of the region `R` has a mapping entry yet. -/
def Unmapped {σ : Type} (R : Group → Prop) (s : RunState σ) : Prop :=
  ∀ x, R x → s.groupMap x.ID = none

/-- What a stretch of the run guarantees that starts in state `s`, ends in
state `s2`, appends the events `t` to the trace and only visits groups of the
region `R`. -/
structure Post {σ : Type} (root : targetGroupSt) (R : Group → Prop) (s s2 : RunState σ)
    (t : List Event) : Prop where
  trace_eq : s2.trace = s.trace ++ t
  mono : ∀ k v, s.groupMap k = some v → s2.groupMap k = some v
  origin : ∀ k v, s2.groupMap k = some v →
    s.groupMap k = some v ∨ ∃ old, Event.store k v old ∈ t
  creates : ∀ x opt res, Event.create x opt res ∈ t →
    R x ∧ ¬ isAlias x ∧
      ∃ st, s2.groupMap x.ParentID = some (some st) ∧ opt = createOptions x st.ID
  fetches : ∀ x path res, Event.fetch x path res ∈ t →
    R x ∧ ¬ isAlias x ∧ path = fetchPath x ∧ (∃ opt, Event.create x opt none ∈ t) ∧
      (res = none → s2.groupMap x.ID = none)
  stores : ∀ k v old, Event.store k v old ∈ t →
    old = none ∧ s2.groupMap k = some v ∧
      ∃ x, R x ∧ x.ID = k ∧ s2.groupMap x.ParentID ≠ none ∧ (isAlias x → v = some root) ∧
        (¬ isAlias x → ∃ tg, v = some ⟨tg.ID, x⟩ ∧
          ((∃ opt, Event.create x opt (some tg) ∈ t) ∨
            ∃ path, Event.fetch x path (some tg) ∈ t))
  once : (t.filterMap createdId).Nodup
  covered : ∀ x, R x → s2.groupMap x.ParentID ≠ none →
    (isAlias x → s2.groupMap x.ID ≠ none) ∧
      (¬ isAlias x → ∃ opt res, Event.create x opt res ∈ t ∧
        (s2.groupMap x.ID = none → ∃ path, Event.fetch x path none ∈ t))

/-! ## Vocabulary of the project-loop theorem -/

/-- The projects `getGroupProjects` lists for the group id `gid` when it is
the call number `n`: none when the call fails or does not return. -/
def listing (svc : Services) (n : Nat) (gid : Int) : List Project :=
  match svc.getGroupProjects n gid with
  | some (some ps) => ps
  | _ => []

/-- The calls the project loop issues for one element `g` of `sourceGroups`
when it runs to its end, `n` calls having been issued before: none when the
id of `g` has no mapping entry, and otherwise the listing call followed by
one `importProject` call per project that call listed, in order, each with
the target id of the entry. -/
def BlockOf (svc : Services) (groupMap : GroupMap) (n : Nat) (g : Group)
    (b : List MainEvent) : Prop :=
  match groupMap g.ID with
  | none => b = []
  | some none => listing svc n g.ID = [] ∧ b = [MainEvent.listCall g]
  | some (some tg) =>
    b = MainEvent.listCall g ::
      (listing svc n g.ID).map (fun p => MainEvent.importCall g p tg.ID)

/-- The blocks of calls of consecutive source groups, the first block starting
as call number `n`. -/
def Blocks (svc : Services) (groupMap : GroupMap) :
    Nat → List Group → List (List MainEvent) → Prop
  | _, [], [] => True
  | n, g :: rest, b :: bs =>
    BlockOf svc groupMap n g b ∧ Blocks svc groupMap (n + b.length) rest bs
  | _, _, _ => False

/-- What is shown of the project loop started on the source groups `L` with
the calls `tr` already issued: the calls it adds are listing calls for mapped
groups of `L` and import calls for projects listed under such a group, each
with the target id of the group's entry; when the loop runs to its end the
added calls are exactly the blocks of the groups of `L`; and it runs to its
end when every call returns and no entry of a group of `L` is nil. -/
def LoopSpec (svc : Services) (groupMap : GroupMap) (L : List Group)
    (tr : List MainEvent) : Prop :=
  ∃ ext, (projectLoop svc groupMap L tr).1 = tr ++ ext ∧
    (∀ g p t, MainEvent.importCall g p t ∈ ext →
      g ∈ L ∧ (∃ tg, groupMap g.ID = some (some tg) ∧ t = tg.ID) ∧
        ∃ n, (projectLoop svc groupMap L tr).1[n]? = some (MainEvent.listCall g) ∧
          p ∈ listing svc n g.ID) ∧
    (∀ g, MainEvent.listCall g ∈ ext → g ∈ L ∧ groupMap g.ID ≠ none) ∧
    ((projectLoop svc groupMap L tr).2 = LoopEnd.finished →
      ∃ blocks, ext = blocks.flatten ∧ Blocks svc groupMap tr.length L blocks) ∧
    ((∀ n gid, svc.getGroupProjects n gid ≠ none) →
      (∀ n p t, svc.importProject n p t ≠ none) →
      (∀ x ∈ L, groupMap x.ID ≠ some none) →
      (projectLoop svc groupMap L tr).2 = LoopEnd.finished)

/-! ## Sample inputs -/

/-- A target server that creates every group it is asked for, numbering the
new groups 100, 101, ... and placing them under `ramooz/`; lookups fail. -/
def freshClient : TargetClient Nat where
  CreateGroup := fun n o =>
    (some ⟨100 + n, o.ParentID, "ramooz/" ++ o.Path, o.Name, o.Path, o.Description,
      o.Visibility⟩, n + 1)
  GetGroup := fun n _ => (none, n)

/-- A target server like `freshClient` that refuses to create a group whose
path is `bad`; lookups fail. -/
def pickyClient : TargetClient Nat where
  CreateGroup := fun n o =>
    if o.Path = "bad" then (none, n)
    else
      (some ⟨100 + n, o.ParentID, "ramooz/" ++ o.Path, o.Name, o.Path, o.Description,
        o.Visibility⟩, n + 1)
  GetGroup := fun n _ => (none, n)

/-- The target root group `ramooz`, with id 7 on the target server. -/
def sampleRootGroup : Group := ⟨7, 0, "ramooz", "ramooz", "ramooz", "", "private"⟩

/-- The entry `main` seeds under key 0 for `sampleRootGroup`. -/
def sampleRoot : targetGroupSt := ⟨7, sampleRootGroup⟩

/-- A top-level source group outside `ramooz`. -/
def groupOther : Group := ⟨1, 0, "other", "other", "other", "", "private"⟩

/-- A child of `groupOther`. -/
def groupOtherSub : Group := ⟨2, 1, "other/x", "x", "x", "", "private"⟩

/-- A top-level source group whose path is the target root itself. -/
def groupAlias : Group := ⟨3, 0, "ramooz", "ramooz", "ramooz", "", "private"⟩

/-- A child of `groupAlias`. -/
def groupAliasSub : Group := ⟨4, 3, "ramooz/y", "y", "y", "", "private"⟩

/-- A top-level source group that `pickyClient` refuses to create. -/
def groupBad : Group := ⟨5, 0, "bad", "bad", "bad", "", "private"⟩

/-- A child of `groupBad`. -/
def groupBadSub : Group := ⟨6, 5, "bad/z", "z", "z", "", "private"⟩

/-- A second list element carrying the id of `groupOther`. -/
def groupTwin : Group := ⟨1, 0, "twin", "twin", "twin", "", "private"⟩

/-- A project of the source group `groupOther`. -/
def sampleProject : Project := ⟨11, "app", "app", "other/app"⟩

/-- Another project of the source group `groupOther`. -/
def sampleProject2 : Project := ⟨12, "lib", "lib", "other/lib"⟩

/-- A pipeline in which every step succeeds, the import endpoint answers 200,
and the export status is `failed` at the first poll and `finished` afterwards. -/
def failedThenFinished : Pipeline where
  getTargetGroup := fun _ => some sampleRootGroup
  scheduleExport := fun _ => true
  exportStatus := fun n _ => if n = 0 then some "failed" else some "finished"
  exportDownload := fun _ => some [1, 2, 3]
  createTemp := some "gitlab-export-1.tar.gz"
  writeTemp := true
  openTemp := true
  createFormFile := true
  copyFile := true
  newRequest := true
  answer := fun _ => DoResult.response ⟨200, "ok"⟩

/-- A pipeline like `failedThenFinished` whose export status is `started` at
the first poll, `failed` at the second, and a status-check error at the third. -/
def errorAtThirdPoll : Pipeline where
  getTargetGroup := fun _ => some sampleRootGroup
  scheduleExport := fun _ => true
  exportStatus := fun n _ =>
    if n = 0 then some "started" else if n = 1 then some "failed" else none
  exportDownload := fun _ => some [1, 2, 3]
  createTemp := some "gitlab-export-1.tar.gz"
  writeTemp := true
  openTemp := true
  createFormFile := true
  copyFile := true
  newRequest := true
  answer := fun _ => DoResult.response ⟨200, "ok"⟩

/-- An import endpoint that answers 429 twice and then 500. -/
def twice429Then500 (n : Nat) : DoResult :=
  if n ≤ 2 then DoResult.response ⟨429, "slow down"⟩ else DoResult.response ⟨500, "oops"⟩

/-- Services that always return: group 1 lists two projects, any other group
none, and every import succeeds. -/
def sampleServices : Services where
  getGroupProjects := fun _ gid =>
    some (some (if gid = 1 then [sampleProject, sampleProject2] else []))
  importProject := fun _ _ _ => some true

/-- Services like `sampleServices` whose `importProject` never returns. -/
def stuckServices : Services where
  getGroupProjects := fun _ gid =>
    some (some (if gid = 1 then [sampleProject, sampleProject2] else []))
  importProject := fun _ _ _ => none

/-- A pipeline like `failedThenFinished` whose export status is `started` at
every poll. -/
def stalledPipeline : Pipeline where
  getTargetGroup := fun _ => some sampleRootGroup
  scheduleExport := fun _ => true
  exportStatus := fun _ _ => some "started"
  exportDownload := fun _ => some [1, 2, 3]
  createTemp := some "gitlab-export-1.tar.gz"
  writeTemp := true
  openTemp := true
  createFormFile := true
  copyFile := true
  newRequest := true
  answer := fun _ => DoResult.response ⟨200, "ok"⟩

/-- A map with entries for the keys 0 and 1 only. -/
def sampleMap : GroupMap :=
  (seedMap sampleRoot).set 1 (some ⟨100, groupOther⟩)

/-! ## Trees of source groups -/

theorem exists_of_ne_none {α : Type} {o : Option α} (h : o ≠ none) : ∃ v, o = some v := by
  cases o with
  | none => exact absurd rfl h
  | some v => exact ⟨v, rfl⟩

section Tree
variable {G : List Group}

theorem Below.mem {p : Int} {x : Group} (h : Below G p x) : x ∈ G := by
  cases h with
  | child hm _ => exact hm
  | step _ hm _ => exact hm

theorem below_trans {p : Int} {g x : Group} (hg : Below G p g) (hx : Below G g.ID x) :
    Below G p x := by
  induction hx with
  | child hm hp => exact Below.step hg hm hp
  | step _ hm hp ih => exact Below.step ih hm hp

theorem eq_of_id (hnd : (G.map Group.ID).Nodup) {x y : Group} (hx : x ∈ G) (hy : y ∈ G)
    (h : x.ID = y.ID) : x = y :=
  List.inj_on_of_nodup_map hnd hx hy h

theorem below_parent_cases {a : Int} {x : Group} (h : Below G a x) :
    x.ParentID = a ∨ ∃ y, Below G a y ∧ x.ParentID = y.ID := by
  cases h with
  | child _ hp => exact Or.inl hp
  | step hh _ hp => exact Or.inr ⟨_, hh, hp⟩

theorem acyclic_child (hnd : (G.map Group.ID).Nodup) {p : Int} (hac : Acyclic G p) {g : Group}
    (hg : g ∈ G) (hp : g.ParentID = p) : Acyclic G g.ID := by
  intro x hx hid
  have hxg : x = g := eq_of_id hnd hx.mem hg hid
  subst hxg
  have hb : Below G p x := Below.child hg hp
  rcases below_parent_cases hx with h | ⟨y, hy, hyp⟩
  · exact hac x hb (by rw [← h, hp])
  · exact hac y (below_trans hb hy) (by rw [← hyp, hp])

theorem below_trichotomy (hnd : (G.map Group.ID).Nodup) {a : Int} {x : Group}
    (ha : Below G a x) : ∀ b, Below G b x →
      a = b ∨ (∃ y, Below G a y ∧ y.ID = b) ∨ (∃ y, Below G b y ∧ y.ID = a) := by
  induction ha with
  | child hm hp =>
    intro b hb
    rcases below_parent_cases hb with h | ⟨y, hy, hyp⟩
    · exact Or.inl (by rw [← hp, h])
    · exact Or.inr (Or.inr ⟨y, hy, by rw [← hyp, hp]⟩)
  | @step h g hh hm hp ih =>
    intro b hb
    cases hb with
    | child _ hp2 => exact Or.inr (Or.inl ⟨h, hh, by rw [← hp, hp2]⟩)
    | @step h2 _ hh2 _ hp2 =>
      have : h2 = h := eq_of_id hnd hh2.mem hh.mem (by rw [← hp2, hp])
      subst this
      exact ih b hh2

/-- A child of `p` is not a proper descendant of another child of `p`. -/
theorem child_not_below {p : Int} (hac : Acyclic G p)
    {g g2 : Group} (hp : g.ParentID = p) (hg2 : g2 ∈ G) (hp2 : g2.ParentID = p) :
    ¬ Below G g2.ID g := by
  intro hb
  have hb2 : Below G p g2 := Below.child hg2 hp2
  rcases below_parent_cases hb with h | ⟨y, hy, hyp⟩
  · exact hac g2 hb2 (by rw [← h, hp])
  · exact hac y (below_trans hb2 hy) (by rw [← hyp, hp])

theorem subtree_disjoint (hnd : (G.map Group.ID).Nodup) {p : Int} (hac : Acyclic G p)
    {g g2 : Group} (hg : g ∈ G) (hp : g.ParentID = p) (hg2 : g2 ∈ G) (hp2 : g2.ParentID = p)
    (hne : g.ID ≠ g2.ID) {x : Group} (hx : Subtree G g x) (hx2 : Subtree G g2 x) : False := by
  rcases hx with rfl | hx
  · rcases hx2 with rfl | hx2
    · exact hne rfl
    · exact child_not_below hac hp hg2 hp2 hx2
  · rcases hx2 with rfl | hx2
    · exact child_not_below hac hp2 hg hp hx
    · rcases below_trichotomy hnd hx _ hx2 with h | ⟨y, hy, hyid⟩ | ⟨y, hy, hyid⟩
      · exact hne h
      · have : y = g2 := eq_of_id hnd hy.mem hg2 hyid
        subst this
        exact child_not_below hac hp2 hg hp hy
      · have : y = g := eq_of_id hnd hy.mem hg hyid
        subst this
        exact child_not_below hac hp hg2 hp2 hy

theorem Subtree.member {g x : Group} (hg : g ∈ G) (h : Subtree G g x) : x ∈ G := by
  rcases h with rfl | h
  · exact hg
  · exact h.mem

theorem Subtree.below {p : Int} {g x : Group} (hg : g ∈ G) (hp : g.ParentID = p)
    (h : Subtree G g x) : Below G p x := by
  rcases h with rfl | h
  · exact Below.child hg hp
  · exact below_trans (Below.child hg hp) h

theorem below_iff_region {p : Int} {x : Group} : Below G p x ↔ Region G G p x := by
  constructor
  · intro h
    induction h with
    | child hm hp => exact ⟨_, hm, hp, Or.inl rfl⟩
    | step _ hm hp ih =>
      obtain ⟨g, hg, hgp, hs⟩ := ih
      refine ⟨g, hg, hgp, Or.inr ?_⟩
      rcases hs with rfl | hs
      · exact Below.child hm hp
      · exact Below.step hs hm hp
  · rintro ⟨g, hg, hgp, hs⟩
    exact hs.below hg hgp

end Tree

section Compose
variable {σ : Type} {root : targetGroupSt}

theorem Post.congr {R R2 : Group → Prop} {s s2 : RunState σ} {t : List Event}
    (h : Post root R s s2 t) (hR : ∀ x, R x ↔ R2 x) : Post root R2 s s2 t := by
  have : R = R2 := funext fun x => propext (hR x)
  subst this
  exact h

theorem Post.refl (R : Group → Prop) (s : RunState σ) (hun : ∀ x, R x → s.groupMap x.ParentID = none) :
    Post root R s s [] where
  trace_eq := by simp
  mono := fun _ _ h => h
  origin := fun _ _ h => Or.inl h
  creates := by simp
  fetches := by simp
  stores := by simp
  once := by simp
  covered := fun x hx hp => absurd (hun x hx) hp

theorem mem_createdId {t : List Event} {i : Int} (h : i ∈ t.filterMap createdId) :
    ∃ x opt res, Event.create x opt res ∈ t ∧ x.ID = i := by
  rw [List.mem_filterMap] at h
  obtain ⟨e, he, hi⟩ := h
  cases e with
  | create x opt res =>
    simp only [createdId, Option.some.injEq] at hi
    exact ⟨x, opt, res, he, hi⟩
  | fetch x path res => simp [createdId] at hi
  | store k v old => simp [createdId] at hi

theorem Post.unmapped {R R2 : Group → Prop} {s s2 : RunState σ} {t : List Event}
    (h : Post root R s s2 t) (hun : Unmapped R2 s)
    (hdisj : ∀ x y, R x → R2 y → x.ID ≠ y.ID) : Unmapped R2 s2 := by
  intro y hy
  by_contra hne
  obtain ⟨v, hv⟩ := exists_of_ne_none hne
  rcases h.origin _ _ hv with h0 | ⟨old, hst⟩
  · rw [hun y hy] at h0
    exact Option.noConfusion h0
  · obtain ⟨_, _, x, hx, hid, _⟩ := h.stores _ _ _ hst
    exact hdisj x y hx hy hid

theorem Post.noNil {R : Group → Prop} {s s2 : RunState σ} {t : List Event}
    (h : Post root R s s2 t) (hnn : NoNil s) : NoNil s2 := by
  intro k hk
  rcases h.origin _ _ hk with h0 | ⟨old, hst⟩
  · exact hnn k h0
  · obtain ⟨_, _, x, _, _, _, ha, hna⟩ := h.stores _ _ _ hst
    by_cases hal : isAlias x
    · exact Option.noConfusion (ha hal)
    · obtain ⟨tg, htg, _⟩ := hna hal
      exact Option.noConfusion htg

theorem Post.comp {R1 R2 : Group → Prop} {s s1 s2 : RunState σ} {t1 t2 : List Event}
    (h1 : Post root R1 s s1 t1) (h2 : Post root R2 s1 s2 t2)
    (hdisj : ∀ x y, R1 x → R2 y → x.ID ≠ y.ID)
    (hpar : ∀ x y, R1 x → R2 y → x.ParentID ≠ y.ID) :
    Post root (fun x => R1 x ∨ R2 x) s s2 (t1 ++ t2) := by
  have keep : ∀ k, s2.groupMap k ≠ none → (∀ y, R2 y → k ≠ y.ID) → s1.groupMap k ≠ none := by
    intro k hk hno h1k
    obtain ⟨v, hv⟩ := exists_of_ne_none hk
    rcases h2.origin _ _ hv with h0 | ⟨old, hst⟩
    · rw [h1k] at h0
      exact Option.noConfusion h0
    · obtain ⟨_, _, y, hy, hid, _⟩ := h2.stores _ _ _ hst
      exact hno y hy hid.symm
  have up : ∀ k, s1.groupMap k ≠ none → s2.groupMap k ≠ none := by
    intro k hk
    obtain ⟨v, hv⟩ := exists_of_ne_none hk
    rw [h2.mono _ _ hv]
    exact Option.some_ne_none v
  refine ⟨?_, ?_, ?_, ?_, ?_, ?_, ?_, ?_⟩
  · rw [h2.trace_eq, h1.trace_eq, List.append_assoc]
  · exact fun k v h => h2.mono k v (h1.mono k v h)
  · intro k v h
    rcases h2.origin k v h with h0 | ⟨old, hst⟩
    · rcases h1.origin k v h0 with h00 | ⟨old, hst⟩
      · exact Or.inl h00
      · exact Or.inr ⟨old, List.mem_append_left _ hst⟩
    · exact Or.inr ⟨old, List.mem_append_right _ hst⟩
  · intro x opt res he
    rcases List.mem_append.mp he with he | he
    · obtain ⟨hx, hal, st, hst, hopt⟩ := h1.creates _ _ _ he
      exact ⟨Or.inl hx, hal, st, h2.mono _ _ hst, hopt⟩
    · obtain ⟨hx, hal, st, hst, hopt⟩ := h2.creates _ _ _ he
      exact ⟨Or.inr hx, hal, st, hst, hopt⟩
  · intro x path res he
    rcases List.mem_append.mp he with he | he
    · obtain ⟨hx, hal, hpath, ⟨opt, hc⟩, hres⟩ := h1.fetches _ _ _ he
      refine ⟨Or.inl hx, hal, hpath, ⟨opt, List.mem_append_left _ hc⟩, fun hr => ?_⟩
      by_contra hne
      exact keep _ hne (fun y hy => hdisj x y hx hy) (hres hr)
    · obtain ⟨hx, hal, hpath, ⟨opt, hc⟩, hres⟩ := h2.fetches _ _ _ he
      exact ⟨Or.inr hx, hal, hpath, ⟨opt, List.mem_append_right _ hc⟩, hres⟩
  · intro k v old he
    rcases List.mem_append.mp he with he | he
    · obtain ⟨hold, hk, x, hx, hid, hp, ha, hna⟩ := h1.stores _ _ _ he
      refine ⟨hold, h2.mono _ _ hk, x, Or.inl hx, hid, up _ hp, ha, fun hal => ?_⟩
      obtain ⟨tg, hv, hev⟩ := hna hal
      refine ⟨tg, hv, ?_⟩
      rcases hev with ⟨opt, hc⟩ | ⟨path, hf⟩
      · exact Or.inl ⟨opt, List.mem_append_left _ hc⟩
      · exact Or.inr ⟨path, List.mem_append_left _ hf⟩
    · obtain ⟨hold, hk, x, hx, hid, hp, ha, hna⟩ := h2.stores _ _ _ he
      refine ⟨hold, hk, x, Or.inr hx, hid, hp, ha, fun hal => ?_⟩
      obtain ⟨tg, hv, hev⟩ := hna hal
      refine ⟨tg, hv, ?_⟩
      rcases hev with ⟨opt, hc⟩ | ⟨path, hf⟩
      · exact Or.inl ⟨opt, List.mem_append_right _ hc⟩
      · exact Or.inr ⟨path, List.mem_append_right _ hf⟩
  · rw [List.filterMap_append, List.nodup_append]
    refine ⟨h1.once, h2.once, ?_⟩
    intro i hi1 hi2
    obtain ⟨x, _, _, hx, hxi⟩ := mem_createdId hi1
    obtain ⟨y, _, _, hy, hyi⟩ := mem_createdId hi2
    exact hdisj x y (h1.creates _ _ _ hx).1 (h2.creates _ _ _ hy).1 (hxi.trans hyi.symm)
  · intro x hx hp
    rcases hx with hx | hx
    · have hp1 : s1.groupMap x.ParentID ≠ none := keep _ hp (fun y hy => hpar x y hx hy)
      obtain ⟨ha, hna⟩ := h1.covered x hx hp1
      refine ⟨fun hal => up _ (ha hal), fun hal => ?_⟩
      obtain ⟨opt, res, hc, hf⟩ := hna hal
      refine ⟨opt, res, List.mem_append_left _ hc, fun hnone => ?_⟩
      have : s1.groupMap x.ID = none := by
        by_contra hne
        exact up _ hne hnone
      obtain ⟨path, hfp⟩ := hf this
      exact ⟨path, List.mem_append_left _ hfp⟩
    · obtain ⟨ha, hna⟩ := h2.covered x hx hp
      refine ⟨ha, fun hal => ?_⟩
      obtain ⟨opt, res, hc, hf⟩ := hna hal
      refine ⟨opt, res, List.mem_append_right _ hc, fun hnone => ?_⟩
      obtain ⟨path, hfp⟩ := hf hnone
      exact ⟨path, List.mem_append_right _ hfp⟩

end Compose

section Body
variable {σ : Type} {root : targetGroupSt} {G : List Group}

theorem unmapped_parent {g x : Group} {s : RunState σ} (hun : Unmapped (Subtree G g) s)
    (hx : Below G g.ID x) : s.groupMap x.ParentID = none := by
  rcases below_parent_cases hx with h | ⟨y, hy, hyp⟩
  · rw [h]
    exact hun g (Or.inl rfl)
  · rw [hyp]
    exact hun y (Or.inr hy)

theorem post_skip {g : Group} {s : RunState σ} (hun : Unmapped (Subtree G g) s)
    (hpar : s.groupMap g.ParentID = none) : Post root (Subtree G g) s s [] := by
  refine Post.refl _ s ?_
  rintro x (rfl | hx)
  · exact hpar
  · exact unmapped_parent hun hx

theorem post_fail {g : Group} {s s1 : RunState σ} {tp : targetGroupSt}
    (hmap : s1.groupMap = s.groupMap)
    (htr : s1.trace = s.trace ++
      [Event.create g (createOptions g tp.ID) none, Event.fetch g (fetchPath g) none])
    (hal : ¬ isAlias g) (hpar : s.groupMap g.ParentID = some (some tp))
    (hun : Unmapped (Subtree G g) s) :
    Post root (Subtree G g) s s1
      [Event.create g (createOptions g tp.ID) none, Event.fetch g (fetchPath g) none] := by
  refine ⟨htr, ?_, ?_, ?_, ?_, ?_, ?_, ?_⟩
  · intro k v h
    rw [hmap]
    exact h
  · intro k v h
    rw [hmap] at h
    exact Or.inl h
  · intro x opt res he
    simp only [List.mem_cons, Event.create.injEq, List.mem_singleton, reduceCtorEq, or_false,
      List.not_mem_nil] at he
    obtain ⟨rfl, rfl, rfl⟩ := he
    exact ⟨Or.inl rfl, hal, tp, by rw [hmap]; exact hpar, rfl⟩
  · intro x path res he
    simp only [List.mem_cons, reduceCtorEq, Event.fetch.injEq, List.mem_singleton, false_or,
      List.not_mem_nil, or_false] at he
    obtain ⟨rfl, rfl, rfl⟩ := he
    refine ⟨Or.inl rfl, hal, rfl, ⟨_, List.mem_cons_self _ _⟩, fun _ => ?_⟩
    rw [hmap]
    exact hun x (Or.inl rfl)
  · intro k v old he
    simp at he
  · simp [createdId]
  · rintro x (rfl | hx) hp
    · refine ⟨fun h => absurd h hal, fun _ =>
        ⟨_, _, List.mem_cons_self _ _, fun _ => ⟨fetchPath x, ?_⟩⟩⟩
      exact List.mem_cons_of_mem _ (List.mem_cons_self _ _)
    · rw [hmap] at hp
      exact absurd (unmapped_parent hun hx) hp

theorem post_visit {g : Group} {s s1 : RunState σ} {tp v : targetGroupSt} (pre : List Event)
    (hmap : s1.groupMap = s.groupMap.set g.ID (some v))
    (htr : s1.trace = s.trace ++ (pre ++ [Event.store g.ID (some v) none]))
    (hun : s.groupMap g.ID = none)
    (hpar : s.groupMap g.ParentID = some (some tp))
    (hne : g.ParentID ≠ g.ID)
    (hpre : (isAlias g ∧ pre = [] ∧ v = root) ∨
      (¬ isAlias g ∧ ∃ tg : Group, v = ⟨tg.ID, g⟩ ∧
        (pre = [Event.create g (createOptions g tp.ID) (some tg)] ∨
          pre = [Event.create g (createOptions g tp.ID) none,
                 Event.fetch g (fetchPath g) (some tg)]))) :
    Post root (fun x => x = g) s s1 (pre ++ [Event.store g.ID (some v) none]) := by
  have hself : s1.groupMap g.ID = some (some v) := by
    rw [hmap]; simp [GroupMap.set]
  have hparent : s1.groupMap g.ParentID = some (some tp) := by
    rw [hmap]; simp [GroupMap.set, hne, hpar]
  refine ⟨htr, ?_, ?_, ?_, ?_, ?_, ?_, ?_⟩
  · intro k w h
    rw [hmap]
    by_cases hk : k = g.ID
    · subst hk
      rw [hun] at h
      exact Option.noConfusion h
    · simp [GroupMap.set, hk, h]
  · intro k w h
    rw [hmap] at h
    by_cases hk : k = g.ID
    · subst hk
      simp only [GroupMap.set, if_true, Option.some.injEq] at h
      subst h
      exact Or.inr ⟨none, by simp⟩
    · simp only [GroupMap.set, hk, if_false] at h
      exact Or.inl h
  · intro x opt res he
    rcases hpre with ⟨_, rfl, _⟩ | ⟨hal, tg, _, rfl | rfl⟩
    · simp at he
    · simp only [List.cons_append, List.nil_append, List.mem_cons, Event.create.injEq,
        reduceCtorEq, List.mem_singleton, or_false, List.not_mem_nil] at he
      obtain ⟨rfl, rfl, rfl⟩ := he
      exact ⟨rfl, hal, tp, hparent, rfl⟩
    · simp only [List.cons_append, List.nil_append, List.mem_cons, Event.create.injEq,
        reduceCtorEq, List.mem_singleton, or_false, List.not_mem_nil, false_or] at he
      obtain ⟨rfl, rfl, rfl⟩ := he
      exact ⟨rfl, hal, tp, hparent, rfl⟩
  · intro x path res he
    rcases hpre with ⟨_, rfl, _⟩ | ⟨hal, tg, _, rfl | rfl⟩
    · simp at he
    · simp at he
    · simp only [List.cons_append, List.nil_append, List.mem_cons, Event.fetch.injEq,
        reduceCtorEq, List.mem_singleton, or_false, List.not_mem_nil, false_or] at he
      obtain ⟨rfl, rfl, rfl⟩ := he
      exact ⟨rfl, hal, rfl, ⟨createOptions x tp.ID, by simp⟩, fun h => Option.noConfusion h⟩
  · intro k w old he
    have hk : k = g.ID ∧ w = some v ∧ old = none := by
      rcases hpre with ⟨_, rfl, _⟩ | ⟨hal, tg, _, rfl | rfl⟩ <;> simpa using he
    obtain ⟨rfl, rfl, rfl⟩ := hk
    refine ⟨rfl, hself, g, rfl, rfl, by rw [hparent]; exact Option.some_ne_none _, ?_, ?_⟩
    · intro hal
      rcases hpre with ⟨_, _, rfl⟩ | ⟨hnal, _⟩
      · rfl
      · exact absurd hal hnal
    · intro hnal
      rcases hpre with ⟨hal, _⟩ | ⟨_, tg, rfl, rfl | rfl⟩
      · exact absurd hal hnal
      · exact ⟨tg, rfl, Or.inl ⟨createOptions g tp.ID, by simp⟩⟩
      · exact ⟨tg, rfl, Or.inr ⟨fetchPath g, by simp⟩⟩
  · rcases hpre with ⟨_, rfl, _⟩ | ⟨hal, tg, _, rfl | rfl⟩ <;> simp [createdId]
  · rintro x rfl _
    refine ⟨fun _ => by rw [hself]; exact Option.some_ne_none _, fun hnal => ?_⟩
    rcases hpre with ⟨hal, _⟩ | ⟨_, tg, _, rfl | rfl⟩
    · exact absurd hal hnal
    · exact ⟨_, _, List.mem_cons_self _ _,
        fun h => by rw [hself] at h; exact Option.noConfusion h⟩
    · exact ⟨_, _, List.mem_cons_self _ _,
        fun h => by rw [hself] at h; exact Option.noConfusion h⟩

end Body

section Run
variable {σ : Type} {root : targetGroupSt} {G : List Group}

/-- Entering the subtree of `g`: once the events `pre` are issued and the
entry of `g` is assigned, the recursive call for the children of `g` completes
the visit of the subtree of `g`. -/
theorem enter_child (hnd : (G.map Group.ID).Nodup)
    {recur : RunState σ → Int → Outcome (RunState σ)} {p : Int} (hac : Acyclic G p)
    {g : Group} (hg : g ∈ G) (hgp : g.ParentID = p) {s s1 : RunState σ}
    {tp v : targetGroupSt} (pre : List Event)
    (hroot : s.groupMap 0 = some (some root)) (hnn : NoNil s)
    (hun : Unmapped (Subtree G g) s)
    (HR : ∀ s1 : RunState σ, Unmapped (Below G g.ID) s1 → s1.groupMap 0 = some (some root) →
      NoNil s1 → ∃ s2 t, recur s1 g.ID = Outcome.done s2 ∧ Post root (Below G g.ID) s1 s2 t)
    (hmap : s1.groupMap = s.groupMap.set g.ID (some v))
    (htr : s1.trace = s.trace ++ (pre ++ [Event.store g.ID (some v) none]))
    (hpar : s.groupMap g.ParentID = some (some tp))
    (hpre : (isAlias g ∧ pre = [] ∧ v = root) ∨
      (¬ isAlias g ∧ ∃ tg : Group, v = ⟨tg.ID, g⟩ ∧
        (pre = [Event.create g (createOptions g tp.ID) (some tg)] ∨
          pre = [Event.create g (createOptions g tp.ID) none,
                 Event.fetch g (fetchPath g) (some tg)]))) :
    ∃ s2 t, recur s1 g.ID = Outcome.done s2 ∧ Post root (Subtree G g) s s2 t := by
  have hb : Below G p g := Below.child hg hgp
  have hne : g.ParentID ≠ g.ID := by
    rw [hgp]
    exact fun h => hac g hb h.symm
  have hacg : Acyclic G g.ID := acyclic_child hnd hac hg hgp
  have h1 : Post root (fun x => x = g) s s1 (pre ++ [Event.store g.ID (some v) none]) :=
    post_visit pre hmap htr (hun g (Or.inl rfl)) hpar hne hpre
  have hun1 : Unmapped (Below G g.ID) s1 := by
    intro y hy
    rw [hmap]
    simp only [GroupMap.set, hacg y hy, if_false]
    exact hun y (Or.inr hy)
  have hroot1 : s1.groupMap 0 = some (some root) := h1.mono _ _ hroot
  obtain ⟨s2, t, hrun, h2⟩ := HR s1 hun1 hroot1 (h1.noNil hnn)
  refine ⟨s2, _, hrun, Post.comp h1 h2 ?_ ?_⟩
  · rintro x y rfl hy
    exact fun h => hacg y hy h.symm
  · rintro x y rfl hy
    rw [hgp]
    exact fun h => hac y (below_trans hb hy) h.symm

theorem loopBody_post (client : TargetClient σ) (hnd : (G.map Group.ID).Nodup)
    {recur : RunState σ → Int → Outcome (RunState σ)} {p : Int} (hac : Acyclic G p)
    {g : Group} (hg : g ∈ G) (hgp : g.ParentID = p) {s : RunState σ}
    (hroot : s.groupMap 0 = some (some root)) (hnn : NoNil s)
    (hun : Unmapped (Subtree G g) s)
    (HR : ∀ s1 : RunState σ, Unmapped (Below G g.ID) s1 → s1.groupMap 0 = some (some root) →
      NoNil s1 → ∃ s2 t, recur s1 g.ID = Outcome.done s2 ∧ Post root (Below G g.ID) s1 s2 t) :
    ∃ s2 t, loopBody client recur p s g = Outcome.done s2 ∧ Post root (Subtree G g) s s2 t := by
  have hgun : s.groupMap g.ID = none := hun g (Or.inl rfl)
  unfold loopBody
  simp only [hgp, ne_eq, not_true_eq_false, if_false, isPersonalNamespace, Bool.false_eq_true]
  rw [← hgp]
  cases hpar : s.groupMap g.ParentID with
  | none => exact ⟨s, [], rfl, post_skip hun hpar⟩
  | some targetParent =>
    cases targetParent with
    | none => exact absurd hpar (hnn _)
    | some tp =>
      have hread : s.groupMap.read 0 = some root := by simp [GroupMap.read, hroot]
      by_cases hal : relativePath g.FullPath = "ramooz"
      · simp only [hal, if_true]
        rw [hread]
        refine enter_child hnd hac hg hgp [] hroot hnn hun HR rfl ?_ hpar
          (Or.inl ⟨hal, rfl, rfl⟩)
        simp [RunState.store, hread, hgun]
      · simp only [hal, if_false]
        cases hc : createGroup client s.remote g tp.ID with
        | mk res r =>
          cases res with
          | some tg =>
            simp only []
            refine enter_child hnd hac hg hgp _ hroot hnn hun HR rfl ?_ hpar
              (Or.inr ⟨hal, tg, rfl, Or.inl rfl⟩)
            simp [RunState.store, hgun]
          | none =>
            simp only []
            cases hf : getGroup client r (targetNamespace ++ "/" ++ relativePath g.FullPath) with
            | mk res2 r2 =>
              cases res2 with
              | some tg =>
                simp only []
                refine enter_child hnd hac hg hgp _ hroot hnn hun HR rfl ?_ hpar
                  (Or.inr ⟨hal, tg, rfl, Or.inr rfl⟩)
                simp [RunState.store, hgun, fetchPath]
              | none =>
                exact ⟨_, _, rfl, post_fail rfl rfl hal hpar hun⟩

end Run

section Loop
variable {σ : Type} {root : targetGroupSt} {G : List Group}

theorem region_nil (p : Int) (x : Group) : ¬ Region G [] p x := by
  rintro ⟨g, hg, _⟩
  exact List.not_mem_nil g hg

theorem region_cons_of_child {p : Int} {g : Group} (rest : List Group) (hgp : g.ParentID = p)
    (x : Group) : (Subtree G g x ∨ Region G rest p x) ↔ Region G (g :: rest) p x := by
  constructor
  · rintro (h | ⟨g2, hg2, hp2, hs⟩)
    · exact ⟨g, List.mem_cons_self _ _, hgp, h⟩
    · exact ⟨g2, List.mem_cons_of_mem _ hg2, hp2, hs⟩
  · rintro ⟨g2, hg2, hp2, hs⟩
    rcases List.mem_cons.mp hg2 with rfl | hg2
    · exact Or.inl hs
    · exact Or.inr ⟨g2, hg2, hp2, hs⟩

theorem region_cons_of_other {p : Int} {g : Group} (rest : List Group) (hgp : g.ParentID ≠ p)
    (x : Group) : Region G rest p x ↔ Region G (g :: rest) p x := by
  constructor
  · rintro ⟨g2, hg2, hp2, hs⟩
    exact ⟨g2, List.mem_cons_of_mem _ hg2, hp2, hs⟩
  · rintro ⟨g2, hg2, hp2, hs⟩
    rcases List.mem_cons.mp hg2 with rfl | hg2
    · exact absurd hp2 hgp
    · exact ⟨g2, hg2, hp2, hs⟩

theorem rangeLoop_post (client : TargetClient σ) (hnd : (G.map Group.ID).Nodup)
    {recur : RunState σ → Int → Outcome (RunState σ)} {p : Int} (hac : Acyclic G p)
    (HR : ∀ g ∈ G, g.ParentID = p → ∀ s1 : RunState σ, Unmapped (Below G g.ID) s1 →
      s1.groupMap 0 = some (some root) → NoNil s1 →
      ∃ s2 t, recur s1 g.ID = Outcome.done s2 ∧ Post root (Below G g.ID) s1 s2 t) :
    ∀ L : List Group, L ⊆ G → (L.map Group.ID).Nodup → ∀ s : RunState σ,
      s.groupMap 0 = some (some root) → NoNil s → Unmapped (Region G L p) s →
      ∃ s2 t, rangeLoop client recur p L s = Outcome.done s2 ∧
        Post root (Region G L p) s s2 t := by
  intro L
  induction L with
  | nil =>
    intro _ _ s _ _ _
    exact ⟨s, [], rfl, Post.refl _ s (fun x hx => absurd hx (region_nil p x))⟩
  | cons g rest ih =>
    intro hsub hLnd s hroot hnn hun
    have hg : g ∈ G := hsub (List.mem_cons_self _ _)
    have hrest : rest ⊆ G := fun x hx => hsub (List.mem_cons_of_mem _ hx)
    rw [List.map_cons, List.nodup_cons] at hLnd
    by_cases hgp : g.ParentID = p
    · have hung : Unmapped (Subtree G g) s :=
        fun x hx => hun x ((region_cons_of_child rest hgp x).mp (Or.inl hx))
      obtain ⟨s1, t1, hb, h1⟩ :=
        loopBody_post client hnd hac hg hgp hroot hnn hung (HR g hg hgp)
      have hdisj : ∀ x y, Subtree G g x → Region G rest p y → x.ID ≠ y.ID := by
        rintro x y hx ⟨g2, hg2, hp2, hy⟩ hid
        have hxy : x = y := eq_of_id hnd (hx.member hg) (hy.member (hrest hg2)) hid
        subst hxy
        refine subtree_disjoint hnd hac hg hgp (hrest hg2) hp2 ?_ hx hy
        intro h
        exact hLnd.1 (h ▸ List.mem_map_of_mem Group.ID hg2)
      have hpar : ∀ x y, Subtree G g x → Region G rest p y → x.ParentID ≠ y.ID := by
        rintro x y hx hy hid
        rcases hx with rfl | hx
        · obtain ⟨g2, hg2, hp2, hy2⟩ := hy
          exact hac y (hy2.below (hrest hg2) hp2) (by rw [← hid, hgp])
        · rcases below_parent_cases hx with h | ⟨z, hz, hzp⟩
          · exact hdisj g y (Or.inl rfl) hy (by rw [← h, hid])
          · exact hdisj z y (Or.inr hz) hy (by rw [← hzp, hid])
      have hun1 : Unmapped (Region G rest p) s1 :=
        h1.unmapped (fun x hx => hun x ((region_cons_of_child rest hgp x).mp (Or.inr hx))) hdisj
      obtain ⟨s2, t2, hl, h2⟩ :=
        ih hrest hLnd.2 s1 (h1.mono _ _ hroot) (h1.noNil hnn) hun1
      refine ⟨s2, t1 ++ t2, ?_, (Post.comp h1 h2 hdisj hpar).congr
        (region_cons_of_child rest hgp)⟩
      simp only [rangeLoop, hb]
      exact hl
    · have hun1 : Unmapped (Region G rest p) s :=
        fun x hx => hun x ((region_cons_of_other rest hgp x).mp hx)
      obtain ⟨s2, t2, hl, h2⟩ := ih hrest hLnd.2 s hroot hnn hun1
      refine ⟨s2, t2, ?_, h2.congr (region_cons_of_other rest hgp)⟩
      have hb : loopBody client recur p s g = Outcome.done s := by
        simp [loopBody, hgp]
      simp only [rangeLoop, hb]
      exact hl

theorem createAll_post (root : targetGroupSt) (client : TargetClient σ)
    (hnd : (G.map Group.ID).Nodup) :
    ∀ (fuel : Nat) (S : Finset Group) (p : Int) (s : RunState σ), Acyclic G p →
      (∀ x, Below G p x → x ∈ S) → S.card < fuel →
      s.groupMap 0 = some (some root) → NoNil s → Unmapped (Below G p) s →
      ∃ s2 t, createAllGroupsInTarget client G fuel s p = Outcome.done s2 ∧
        Post root (Below G p) s s2 t := by
  intro fuel
  induction fuel with
  | zero =>
    intro S p s _ _ hcard
    exact absurd hcard (Nat.not_lt_zero _)
  | succ n ih =>
    intro S p s hac hS hcard hroot hnn hun
    have HR : ∀ g ∈ G, g.ParentID = p → ∀ s1 : RunState σ, Unmapped (Below G g.ID) s1 →
        s1.groupMap 0 = some (some root) → NoNil s1 →
        ∃ s2 t, createAllGroupsInTarget client G n s1 g.ID = Outcome.done s2 ∧
          Post root (Below G g.ID) s1 s2 t := by
      intro g hg hgp s1 hun1 hroot1 hnn1
      have hacg : Acyclic G g.ID := acyclic_child hnd hac hg hgp
      have hgS : g ∈ S := hS g (Below.child hg hgp)
      refine ih (S.erase g) g.ID s1 hacg ?_ ?_ hroot1 hnn1 hun1
      · intro x hx
        rw [Finset.mem_erase]
        refine ⟨?_, hS x (below_trans (Below.child hg hgp) hx)⟩
        rintro rfl
        exact hacg x hx rfl
      · rw [Finset.card_erase_of_mem hgS]
        have : 0 < S.card := Finset.card_pos.mpr ⟨g, hgS⟩
        omega
    obtain ⟨s2, t, hl, h2⟩ := rangeLoop_post client hnd hac HR G (fun _ h => h) hnd s hroot hnn
      (fun x hx => hun x (below_iff_region.mpr hx))
    exact ⟨s2, t, hl, h2.congr (fun x => below_iff_region.symm)⟩

end Loop

section Seeded
variable {σ : Type} {root : targetGroupSt} {G : List Group}

/-- The run `main` starts: it ends, and the whole trace obeys `Post`. -/
theorem replicate_post (root : targetGroupSt) (client : TargetClient σ)
    (hnd : (G.map Group.ID).Nodup) (hz : ∀ g ∈ G, g.ID ≠ 0) (r : σ) {fuel : Nat}
    (hfuel : G.length < fuel) :
    ∃ s, replicate client G root r fuel = Outcome.done s ∧
      Post root (Below G 0) (seedState root r) s s.trace := by
  have hac : Acyclic G 0 := fun x hx => hz x hx.mem
  have hcard : G.toFinset.card < fuel := lt_of_le_of_lt (List.toFinset_card_le G) hfuel
  obtain ⟨s, t, hrun, hp⟩ := createAll_post root client hnd fuel G.toFinset 0
    (seedState root r) hac (fun x hx => List.mem_toFinset.mpr hx.mem) hcard
    (by simp [seedState, seedMap])
    (by intro k; simp only [seedState, seedMap]; split <;> simp)
    (by intro x hx; simp [seedState, seedMap, hz x hx.mem])
  refine ⟨s, hrun, ?_⟩
  have ht : s.trace = t := by
    rw [hp.trace_eq]
    simp [seedState]
  rw [ht]
  exact hp

theorem seeded_root {s : RunState σ} {r : σ} {t : List Event}
    (hp : Post root (Below G 0) (seedState root r) s t) : s.groupMap 0 = some (some root) :=
  hp.mono _ _ (by simp [seedState, seedMap])

/-- A mapped key other than 0 was stored for a reachable group carrying that id. -/
theorem seeded_key {s : RunState σ} {r : σ} {t : List Event}
    (hp : Post root (Below G 0) (seedState root r) s t) {k : Int}
    (hk : s.groupMap k ≠ none) : k = 0 ∨ ∃ x, Below G 0 x ∧ x.ID = k := by
  obtain ⟨v, hv⟩ := exists_of_ne_none hk
  rcases hp.origin _ _ hv with h0 | ⟨old, hst⟩
  · by_cases hk0 : k = 0
    · exact Or.inl hk0
    · simp [seedState, seedMap, hk0] at h0
  · obtain ⟨_, _, x, hx, hid, _⟩ := hp.stores _ _ _ hst
    exact Or.inr ⟨x, hx, hid⟩

/-- A group of the list whose parent id is mapped is reachable from 0. -/
theorem seeded_reach {s : RunState σ} {r : σ} {t : List Event}
    (hp : Post root (Below G 0) (seedState root r) s t) {g : Group} (hg : g ∈ G)
    (hpar : s.groupMap g.ParentID ≠ none) : Below G 0 g := by
  rcases seeded_key hp hpar with h0 | ⟨x, hx, hid⟩
  · exact Below.child hg h0
  · exact Below.step hx hg hid.symm

/-- A group whose parent id is not mapped is left alone. -/
theorem seeded_silent (hnd : (G.map Group.ID).Nodup) (hz : ∀ g ∈ G, g.ID ≠ 0)
    {s : RunState σ} {r : σ} {t : List Event}
    (hp : Post root (Below G 0) (seedState root r) s t) {x : Group} (hx : x ∈ G)
    (hpar : s.groupMap x.ParentID = none) :
    s.groupMap x.ID = none ∧ (∀ opt res, Event.create x opt res ∉ t) ∧
      ∀ path res, Event.fetch x path res ∉ t := by
  have hc : ∀ opt res, Event.create x opt res ∉ t := by
    intro opt res he
    obtain ⟨_, _, st, hst, _⟩ := hp.creates _ _ _ he
    rw [hpar] at hst
    exact Option.noConfusion hst
  refine ⟨?_, hc, ?_⟩
  · by_contra hne
    obtain ⟨v, hv⟩ := exists_of_ne_none hne
    rcases hp.origin _ _ hv with h0 | ⟨old, hst⟩
    · simp [seedState, seedMap, hz x hx] at h0
    · obtain ⟨_, _, y, hy, hid, hyp, _⟩ := hp.stores _ _ _ hst
      have : y = x := eq_of_id hnd hy.mem hx hid
      subst this
      exact hyp hpar
  · intro path res he
    obtain ⟨_, _, _, ⟨opt, hcr⟩, _⟩ := hp.fetches _ _ _ he
    exact hc opt none hcr

theorem seeded_subtree_silent (hnd : (G.map Group.ID).Nodup) (hz : ∀ g ∈ G, g.ID ≠ 0)
    {s : RunState σ} {r : σ} {t : List Event}
    (hp : Post root (Below G 0) (seedState root r) s t) {g : Group}
    (hg : s.groupMap g.ID = none) {x : Group} (hx : Below G g.ID x) :
    s.groupMap x.ID = none ∧ (∀ opt res, Event.create x opt res ∉ t) ∧
      ∀ path res, Event.fetch x path res ∉ t := by
  induction hx with
  | child hm hpx => exact seeded_silent hnd hz hp hm (by rw [hpx]; exact hg)
  | step _ hm hpx ih => exact seeded_silent hnd hz hp hm (by rw [hpx]; exact ih.1)

/-- When no fallback lookup fails, every reachable group ends up mapped. -/
theorem seeded_all_mapped {s : RunState σ} {r : σ} {t : List Event}
    (hp : Post root (Below G 0) (seedState root r) s t)
    (hok : ∀ x path, Event.fetch x path none ∉ t) {g : Group} (hg : Below G 0 g) :
    s.groupMap g.ID ≠ none := by
  have key : ∀ x, Below G 0 x → s.groupMap x.ParentID ≠ none → s.groupMap x.ID ≠ none := by
    intro x hx hpar
    obtain ⟨ha, hna⟩ := hp.covered x hx hpar
    by_cases hal : isAlias x
    · exact ha hal
    · obtain ⟨_, _, _, hf⟩ := hna hal
      intro hnone
      obtain ⟨path, hfp⟩ := hf hnone
      exact hok x path hfp
  induction hg with
  | child hm hpx =>
    refine key _ (Below.child hm hpx) ?_
    rw [hpx, seeded_root hp]
    exact Option.some_ne_none _
  | step hh hm hpx ih =>
    refine key _ (Below.step hh hm hpx) ?_
    rw [hpx]
    exact ih

end Seeded

/-! ## Claims about group replication -/

/-- C1: for a flat list of source groups with pairwise distinct non-zero ids
and the map seeded only with entry 0, the run started at parent id 0 ends;
if no create-or-fetch call fails (no fallback lookup fails), every source group
reachable from parent id 0 along `ParentID` links has a mapping entry; and
every create call carries as parent id the target id stored in the mapping
entry of the source group's `ParentID`. -/
theorem createAllGroups_maps_reachable {σ : Type} (client : TargetClient σ)
    (sourceGroups : List Group) (root : targetGroupSt) (r : σ) (fuel : Nat)
    (hnd : (sourceGroups.map Group.ID).Nodup) (hz : ∀ g ∈ sourceGroups, g.ID ≠ 0)
    (hfuel : sourceGroups.length < fuel) :
    ∃ s, replicate client sourceGroups root r fuel = Outcome.done s ∧
      ((∀ x path, Event.fetch x path none ∉ s.trace) →
        ∀ g, Below sourceGroups 0 g → s.groupMap g.ID ≠ none) ∧
      ∀ g opt res, Event.create g opt res ∈ s.trace →
        ∃ st, s.groupMap g.ParentID = some (some st) ∧ opt.ParentID = st.ID := by
  obtain ⟨s, hrun, hp⟩ := replicate_post root client hnd hz r hfuel
  refine ⟨s, hrun, fun hok g hg => seeded_all_mapped hp hok hg, ?_⟩
  intro g opt res he
  obtain ⟨_, _, st, hst, hopt⟩ := hp.creates _ _ _ he
  exact ⟨st, hst, by rw [hopt]; rfl⟩

theorem createAllGroups_maps_reachable_witness :
    ([groupOther, groupOtherSub].map Group.ID).Nodup ∧
    (∀ g ∈ [groupOther, groupOtherSub], g.ID ≠ 0) ∧
    ∃ s, replicate freshClient [groupOther, groupOtherSub] sampleRoot 0 3 = Outcome.done s ∧
      (∀ x path, Event.fetch x path none ∉ s.trace) ∧
      (∀ g, Below [groupOther, groupOtherSub] 0 g → s.groupMap g.ID ≠ none) ∧
      ∀ g opt res, Event.create g opt res ∈ s.trace →
        ∃ st, s.groupMap g.ParentID = some (some st) ∧ opt.ParentID = st.ID := by
  obtain ⟨s, hs, hmapped, hparent⟩ :=
    createAllGroups_maps_reachable freshClient [groupOther, groupOtherSub] sampleRoot 0 3
      (by decide) (by decide) (by decide)
  have hrun : ∃ s0, replicate freshClient [groupOther, groupOtherSub] sampleRoot 0 3
      = Outcome.done s0 ∧ (s0.trace.all fun e => !failedFetch e) = true :=
    ⟨_, rfl, by decide⟩
  obtain ⟨s0, hs0, hall⟩ := hrun
  have hss : s0 = s := Outcome.done.inj (hs0.symm.trans hs)
  rw [hss] at hall
  have hok : ∀ x path, Event.fetch x path none ∉ s.trace := by
    intro x path hmem
    have hb := List.all_eq_true.mp hall _ hmem
    simp [failedFetch] at hb
  exact ⟨by decide, by decide, s, hs, hok, hmapped hok, hparent⟩

/-- C2, as stated, fails: processing a source group whose stripped path is
`ramooz` adds a mapping entry under that group's own id (key 3 here, absent
from the seeded map), although it issues no create or fetch call. -/
theorem root_alias_adds_entry :
    ∃ s, replicate freshClient [groupAlias] sampleRoot 0 2 = Outcome.done s ∧
      seedMap sampleRoot 3 = none ∧ s.groupMap 3 = some (some sampleRoot) ∧
      s.trace = [Event.store 3 (some sampleRoot) none] :=
  ⟨_, rfl, by decide, by decide, by decide⟩

/-- C2, amended: for pairwise distinct non-zero ids and the map seeded only
with entry 0, a source group `g` whose stripped path is `ramooz` gets no create
and no fetch call; once its parent is mapped (so that `g` is processed) the
map holds, under the id of `g`, the root's entry (and never anything else),
and every child of `g` in the list is then processed under the root: a child
that is not itself an alias gets a create call built from it with the root's
target id as parent id, a child that is an alias gets the root's entry; and
every create call for a child of `g` carries the root's target id as parent
id. -/
theorem root_alias_merges_into_root {σ : Type} (client : TargetClient σ)
    (sourceGroups : List Group) (root : targetGroupSt) (r : σ) (fuel : Nat)
    (hnd : (sourceGroups.map Group.ID).Nodup) (hz : ∀ g ∈ sourceGroups, g.ID ≠ 0)
    (hfuel : sourceGroups.length < fuel) :
    ∃ s, replicate client sourceGroups root r fuel = Outcome.done s ∧
      ∀ g ∈ sourceGroups, relativePath g.FullPath = "ramooz" →
        (∀ opt res, Event.create g opt res ∉ s.trace) ∧
        (∀ path res, Event.fetch g path res ∉ s.trace) ∧
        (s.groupMap g.ParentID ≠ none → s.groupMap g.ID = some (some root)) ∧
        (∀ v, s.groupMap g.ID = some v → v = some root) ∧
        (∀ c opt res, Event.create c opt res ∈ s.trace → c.ParentID = g.ID →
          opt.ParentID = root.ID) ∧
        (s.groupMap g.ParentID ≠ none → ∀ c ∈ sourceGroups, c.ParentID = g.ID →
          if relativePath c.FullPath = "ramooz" then s.groupMap c.ID = some (some root)
          else ∃ res, Event.create c (createOptions c root.ID) res ∈ s.trace) := by
  obtain ⟨s, hrun, hp⟩ := replicate_post root client hnd hz r hfuel
  refine ⟨s, hrun, ?_⟩
  have hval : ∀ x ∈ sourceGroups, relativePath x.FullPath = "ramooz" →
      ∀ v, s.groupMap x.ID = some v → v = some root := by
    intro x hx hal v hv
    rcases hp.origin _ _ hv with h0 | ⟨old, hst⟩
    · simp [seedState, seedMap, hz x hx] at h0
    · obtain ⟨_, _, y, hy, hid, _, ha, _⟩ := hp.stores _ _ _ hst
      have : y = x := eq_of_id hnd hy.mem hx hid
      subst this
      exact ha hal
  have hmapped : ∀ x ∈ sourceGroups, relativePath x.FullPath = "ramooz" →
      s.groupMap x.ParentID ≠ none → s.groupMap x.ID = some (some root) := by
    intro x hx hal hpar
    have hne := (hp.covered x (seeded_reach hp hx hpar) hpar).1 hal
    obtain ⟨v, hv⟩ := exists_of_ne_none hne
    rw [hv, hval x hx hal v hv]
  intro g hg hal
  refine ⟨?_, ?_, hmapped g hg hal, hval g hg hal, ?_, ?_⟩
  · intro opt res he
    exact (hp.creates _ _ _ he).2.1 hal
  · intro path res he
    exact (hp.fetches _ _ _ he).2.1 hal
  · intro c opt res he hc
    obtain ⟨_, _, st, hst, hopt⟩ := hp.creates _ _ _ he
    rw [hc] at hst
    have := hval g hg hal _ hst
    simp only [Option.some.injEq] at this
    rw [hopt, this]
    rfl
  · intro hpar c hc hcp
    have hgm : s.groupMap g.ID = some (some root) := hmapped g hg hal hpar
    have hcpar : s.groupMap c.ParentID ≠ none := by
      rw [hcp, hgm]
      exact Option.some_ne_none _
    split
    · rename_i hcal
      exact hmapped c hc hcal hcpar
    · rename_i hcal
      obtain ⟨opt, res, he, _⟩ := (hp.covered c (seeded_reach hp hc hcpar) hcpar).2 hcal
      obtain ⟨_, _, st, hst, hopt⟩ := hp.creates _ _ _ he
      rw [hcp, hgm] at hst
      simp only [Option.some.injEq] at hst
      rw [hopt, ← hst] at he
      exact ⟨res, he⟩

theorem root_alias_merges_into_root_witness :
    ([groupAlias, groupAliasSub].map Group.ID).Nodup ∧
    (∀ g ∈ [groupAlias, groupAliasSub], g.ID ≠ 0) ∧
    ∃ s, replicate freshClient [groupAlias, groupAliasSub] sampleRoot 0 3 = Outcome.done s ∧
      (∀ opt res, Event.create groupAlias opt res ∉ s.trace) ∧
      (∀ path res, Event.fetch groupAlias path res ∉ s.trace) ∧
      s.groupMap groupAlias.ID = some (some sampleRoot) ∧
      ∃ res, Event.create groupAliasSub (createOptions groupAliasSub sampleRoot.ID) res
        ∈ s.trace := by
  obtain ⟨s, hs, h⟩ :=
    root_alias_merges_into_root freshClient [groupAlias, groupAliasSub] sampleRoot 0 3
      (by decide) (by decide) (by decide)
  have hrun : ∃ s0, replicate freshClient [groupAlias, groupAliasSub] sampleRoot 0 3
      = Outcome.done s0 ∧ s0.groupMap groupAlias.ParentID ≠ none :=
    ⟨_, rfl, by decide⟩
  obtain ⟨s0, hs0, hpar⟩ := hrun
  have hss : s0 = s := Outcome.done.inj (hs0.symm.trans hs)
  rw [hss] at hpar
  obtain ⟨h1, h2, h3, _, _, h6⟩ := h groupAlias (by decide) (by decide)
  have hchild := h6 hpar groupAliasSub (by decide) rfl
  rw [if_neg (by decide)] at hchild
  exact ⟨by decide, by decide, s, hs, h1, h2, h3 hpar, hchild⟩

/-- C7, as stated, fails: when two list elements carry the same id, the entry
stored for the first is replaced when the second is processed. -/
theorem duplicate_id_overwrites_entry :
    ∃ s, replicate freshClient [groupOther, groupTwin] sampleRoot 0 3 = Outcome.done s ∧
      s.trace =
        [Event.create groupOther (createOptions groupOther 7)
            (some ⟨100, 7, "ramooz/other", "other", "other", "", "private"⟩),
         Event.store 1 (some ⟨100, groupOther⟩) none,
         Event.create groupTwin (createOptions groupTwin 7)
            (some ⟨101, 7, "ramooz/twin", "twin", "twin", "", "private"⟩),
         Event.store 1 (some ⟨101, groupTwin⟩) (some (some ⟨100, groupOther⟩))] ∧
      s.groupMap 1 = some (some ⟨101, groupTwin⟩) ∧
      s.groupMap 1 ≠ some (some ⟨100, groupOther⟩) :=
  ⟨_, rfl, by decide, by decide, by decide⟩

/-- C7, amended: for a list of source groups with pairwise distinct ids and
a seeded map (key 0 holds the root's entry, no nil pointer) none of whose keys
is the id of a source group, the run started at parent id 0 ends, every
assignment to the map goes to a key that is absent at that moment, the value
assigned is the value found under the key at the end, and every entry the map
had at the start, the seeded key 0 included, is unchanged at the end. -/
theorem entries_never_overwritten {σ : Type} (client : TargetClient σ)
    (sourceGroups : List Group) (root : targetGroupSt) (s0 : RunState σ) (fuel : Nat)
    (hnd : (sourceGroups.map Group.ID).Nodup)
    (hroot : s0.groupMap 0 = some (some root))
    (hnn : ∀ k, s0.groupMap k ≠ some none)
    (hfresh : ∀ g ∈ sourceGroups, s0.groupMap g.ID = none)
    (hfuel : sourceGroups.length < fuel) :
    ∃ s t, createAllGroupsInTarget client sourceGroups fuel s0 0 = Outcome.done s ∧
      s.trace = s0.trace ++ t ∧
      (∀ k v old, Event.store k v old ∈ t → old = none ∧ s.groupMap k = some v) ∧
      (∀ k v, s0.groupMap k = some v → s.groupMap k = some v) ∧
      ∀ k v, s.groupMap k = some v →
        s0.groupMap k = some v ∨ ∃ old, Event.store k v old ∈ t := by
  have hz : ∀ g ∈ sourceGroups, g.ID ≠ 0 := by
    intro g hg h0
    have hn := hfresh g hg
    rw [h0, hroot] at hn
    exact Option.noConfusion hn
  have hac : Acyclic sourceGroups 0 := fun x hx => hz x hx.mem
  have hcard : sourceGroups.toFinset.card < fuel :=
    lt_of_le_of_lt (List.toFinset_card_le sourceGroups) hfuel
  obtain ⟨s, t, hrun, hp⟩ := createAll_post root client hnd fuel
    sourceGroups.toFinset 0 s0 hac (fun x hx => List.mem_toFinset.mpr hx.mem) hcard hroot hnn
    (fun x hx => hfresh x hx.mem)
  exact ⟨s, t, hrun, hp.trace_eq,
    fun k v old he => ⟨(hp.stores _ _ _ he).1, (hp.stores _ _ _ he).2.1⟩, hp.mono, hp.origin⟩

theorem entries_never_overwritten_witness :
    ([groupOther, groupOtherSub].map Group.ID).Nodup ∧
    (∀ g ∈ [groupOther, groupOtherSub],
      (seedState sampleRoot (0 : Nat)).groupMap g.ID = none) ∧
    ∃ s t, createAllGroupsInTarget freshClient [groupOther, groupOtherSub] 3
        (seedState sampleRoot 0) 0 = Outcome.done s ∧
      s.trace = (seedState sampleRoot (0 : Nat)).trace ++ t ∧
      (∀ k v old, Event.store k v old ∈ t → old = none ∧ s.groupMap k = some v) ∧
      (∀ k v, (seedState sampleRoot (0 : Nat)).groupMap k = some v → s.groupMap k = some v) ∧
      ∀ k v, s.groupMap k = some v →
        (seedState sampleRoot (0 : Nat)).groupMap k = some v ∨
          ∃ old, Event.store k v old ∈ t :=
  ⟨by decide, by decide,
    entries_never_overwritten freshClient [groupOther, groupOtherSub] sampleRoot
      (seedState sampleRoot 0) 3 (by decide) rfl
      (by
        intro k
        simp only [seedState, seedMap]
        split <;> simp)
      (by decide) (by decide)⟩

/-- C8: on the source group `other`, created in the target as `ramooz/other`
with id 100, the entry recorded under the source id holds the target id 100
but the source group, so the full path in the entry is `other`, not the
target group's `ramooz/other`. -/
theorem entry_holds_source_group :
    ∃ s tg e, replicate freshClient [groupOther] sampleRoot 0 2 = Outcome.done s ∧
      s.trace = [Event.create groupOther (createOptions groupOther 7) (some tg),
                 Event.store 1 (some e) none] ∧
      s.groupMap groupOther.ID = some (some e) ∧ e.ID = tg.ID ∧
      tg.FullPath = "ramooz/other" ∧ e.Group.FullPath = "other" ∧
      e.Group.FullPath ≠ tg.FullPath :=
  ⟨_, _, _, rfl, rfl, by decide, by decide, by decide, by decide, by decide⟩

/-- C9: for pairwise distinct non-zero ids and the map seeded only with entry
0, the run ends, and for every group `g` whose fallback lookup failed (it is
issued only after the create call of `g` failed, with the path
`targetNamespace/relative path`): the map has no entry for `g` nor for any
descendant of `g`, no create or fetch call is issued for a descendant of
`g`, and every group with the same `ParentID` as `g` has been processed (an
alias got its entry, any other group its create call). -/
theorem failed_group_prunes_subtree {σ : Type} (client : TargetClient σ)
    (sourceGroups : List Group) (root : targetGroupSt) (r : σ) (fuel : Nat)
    (hnd : (sourceGroups.map Group.ID).Nodup) (hz : ∀ g ∈ sourceGroups, g.ID ≠ 0)
    (hfuel : sourceGroups.length < fuel) :
    ∃ s, replicate client sourceGroups root r fuel = Outcome.done s ∧
      ∀ g path, Event.fetch g path none ∈ s.trace →
        path = targetNamespace ++ "/" ++ relativePath g.FullPath ∧
        (∃ opt, Event.create g opt none ∈ s.trace) ∧
        s.groupMap g.ID = none ∧
        (∀ x, Below sourceGroups g.ID x →
          s.groupMap x.ID = none ∧ (∀ opt res, Event.create x opt res ∉ s.trace) ∧
            ∀ p res, Event.fetch x p res ∉ s.trace) ∧
        ∀ h ∈ sourceGroups, h.ParentID = g.ParentID →
          if relativePath h.FullPath = "ramooz" then s.groupMap h.ID = some (some root)
          else ∃ opt res, Event.create h opt res ∈ s.trace := by
  obtain ⟨s, hrun, hp⟩ := replicate_post root client hnd hz r hfuel
  refine ⟨s, hrun, ?_⟩
  intro g path he
  obtain ⟨hg, _, hpath, ⟨opt, hc⟩, hres⟩ := hp.fetches _ _ _ he
  have hgn : s.groupMap g.ID = none := hres rfl
  refine ⟨hpath, ⟨opt, hc⟩, hgn, fun x hx => seeded_subtree_silent hnd hz hp hgn hx, ?_⟩
  intro h hh hpar
  obtain ⟨_, _, st, hst, _⟩ := hp.creates _ _ _ hc
  have hpm : s.groupMap h.ParentID ≠ none := by
    rw [hpar, hst]
    exact Option.some_ne_none _
  obtain ⟨ha, hna⟩ := hp.covered h (seeded_reach hp hh hpm) hpm
  split
  · rename_i hal
    obtain ⟨v, hv⟩ := exists_of_ne_none (ha hal)
    rcases hp.origin _ _ hv with h0 | ⟨old, hs⟩
    · simp [seedState, seedMap, hz h hh] at h0
    · obtain ⟨_, _, x, hx, hid, _, hax, _⟩ := hp.stores _ _ _ hs
      have : x = h := eq_of_id hnd hx.mem hh hid
      subst this
      rw [hv, hax hal]
  · rename_i hal
    obtain ⟨o, res, hcr, _⟩ := hna hal
    exact ⟨o, res, hcr⟩

theorem failed_group_prunes_subtree_witness :
    ([groupBad, groupBadSub, groupOther].map Group.ID).Nodup ∧
    (∀ g ∈ [groupBad, groupBadSub, groupOther], g.ID ≠ 0) ∧
    ∃ s, replicate pickyClient [groupBad, groupBadSub, groupOther] sampleRoot 0 4
        = Outcome.done s ∧
      Event.fetch groupBad "ramooz/bad" none ∈ s.trace ∧
      s.groupMap groupBad.ID = none ∧
      (∀ x, Below [groupBad, groupBadSub, groupOther] groupBad.ID x →
        s.groupMap x.ID = none ∧ (∀ opt res, Event.create x opt res ∉ s.trace) ∧
          ∀ p res, Event.fetch x p res ∉ s.trace) ∧
      ∀ h ∈ [groupBad, groupBadSub, groupOther], h.ParentID = groupBad.ParentID →
        if relativePath h.FullPath = "ramooz" then s.groupMap h.ID = some (some sampleRoot)
        else ∃ opt res, Event.create h opt res ∈ s.trace := by
  obtain ⟨s, hs, h⟩ := failed_group_prunes_subtree pickyClient
    [groupBad, groupBadSub, groupOther] sampleRoot 0 4 (by decide) (by decide) (by decide)
  have hrun : ∃ s0, replicate pickyClient [groupBad, groupBadSub, groupOther] sampleRoot 0 4
      = Outcome.done s0 ∧ Event.fetch groupBad "ramooz/bad" none ∈ s0.trace :=
    ⟨_, rfl, by decide⟩
  obtain ⟨s0, hs0, hmem⟩ := hrun
  have hss : s0 = s := Outcome.done.inj (hs0.symm.trans hs)
  rw [hss] at hmem
  obtain ⟨_, _, h3, h4, h5⟩ := h groupBad _ hmem
  exact ⟨by decide, by decide, s, hs, hmem, h3, h4, h5⟩

/-- C10: for a finite list of source groups with pairwise distinct non-zero
ids and any answers of the target server, the run started at parent id 0 from
the seeded map ends once the recursion depth may reach the number of groups
plus one, every create call is issued for a group of the list, and no group
gets more than one create call. -/
theorem createAllGroups_terminates {σ : Type} (client : TargetClient σ)
    (sourceGroups : List Group) (root : targetGroupSt) (r : σ) (fuel : Nat)
    (hnd : (sourceGroups.map Group.ID).Nodup) (hz : ∀ g ∈ sourceGroups, g.ID ≠ 0)
    (hfuel : sourceGroups.length < fuel) :
    ∃ s, replicate client sourceGroups root r fuel = Outcome.done s ∧
      (∀ g opt res, Event.create g opt res ∈ s.trace → g ∈ sourceGroups) ∧
      ∀ i, (s.trace.filterMap createdId).count i ≤ 1 := by
  obtain ⟨s, hrun, hp⟩ := replicate_post root client hnd hz r hfuel
  refine ⟨s, hrun, fun g opt res he => (hp.creates _ _ _ he).1.mem, ?_⟩
  exact fun i => List.nodup_iff_count_le_one.mp hp.once i

theorem createAllGroups_terminates_witness :
    ([groupBad, groupBadSub, groupOther].map Group.ID).Nodup ∧
    (∀ g ∈ [groupBad, groupBadSub, groupOther], g.ID ≠ 0) ∧
    ∃ s, replicate pickyClient [groupBad, groupBadSub, groupOther] sampleRoot 0 4
        = Outcome.done s ∧
      (∀ g opt res, Event.create g opt res ∈ s.trace →
        g ∈ [groupBad, groupBadSub, groupOther]) ∧
      ∀ i, (s.trace.filterMap createdId).count i ≤ 1 :=
  ⟨by decide, by decide,
    createAllGroups_terminates pickyClient [groupBad, groupBadSub, groupOther] sampleRoot 0 4
      (by decide) (by decide) (by decide)⟩

/-! ## Claims about the retry policy -/

/-- C3: when the endpoint answers 429 to five consecutive attempts,
`importWithRetry` makes five attempts and returns the "too many 429" error,
but it sleeps five times, not four: 10s, 20s, 40s, 80s and, after the fifth
and last attempt, 160s. -/
theorem retry_sleeps_after_last_attempt :
    (importWithRetry fun _ => DoResult.response ⟨429, ""⟩).result
        = Except.error RetryError.tooMany429 ∧
      (importWithRetry fun _ => DoResult.response ⟨429, ""⟩).trace =
        [RetryEvent.attempt 1, RetryEvent.sleep (10 * second),
         RetryEvent.attempt 2, RetryEvent.sleep (20 * second),
         RetryEvent.attempt 3, RetryEvent.sleep (40 * second),
         RetryEvent.attempt 4, RetryEvent.sleep (80 * second),
         RetryEvent.attempt 5, RetryEvent.sleep (160 * second)] ∧
      sleepsOf (importWithRetry fun _ => DoResult.response ⟨429, ""⟩).trace ≠
        [10 * second, 20 * second, 40 * second, 80 * second] :=
  ⟨rfl, by decide, by decide⟩

/-- C4: when the first `k < 5` attempts are answered 429 and attempt `k + 1`
is answered otherwise, `importWithRetry` makes exactly `k + 1` attempts,
having slept `10s * 2^i` after attempt `i + 1` for `i < k`; a response with a
status other than 429 is returned unchanged with no error, and a transport
error is returned at once as the error of that attempt, which is not the
"too many 429" error. -/
theorem retry_stops_at_first_other_outcome (answer : Nat → DoResult) (k : Nat) (hk : k < 5)
    (h429 : ∀ i, 1 ≤ i → i ≤ k →
      ∃ resp, answer i = DoResult.response resp ∧ resp.StatusCode = 429)
    (hlast : ∀ resp, answer (k + 1) = DoResult.response resp → resp.StatusCode ≠ 429) :
    attemptCount (importWithRetry answer).trace = k + 1 ∧
      sleepsOf (importWithRetry answer).trace
        = (List.range k).map (fun i => 10 * second * 2 ^ i) ∧
      (∀ resp, answer (k + 1) = DoResult.response resp →
        (importWithRetry answer).result = Except.ok resp) ∧
      ∀ err, answer (k + 1) = DoResult.failure err →
        (importWithRetry answer).result
            = Except.error (RetryError.attemptFailed (k + 1) err) ∧
          (importWithRetry answer).result ≠ Except.error RetryError.tooMany429 := by
  have w1 : wrap64 10000000000 = 10000000000 := by decide
  have w2 : wrap64 20000000000 = 20000000000 := by decide
  have w3 : wrap64 40000000000 = 40000000000 := by decide
  have w4 : wrap64 80000000000 = 80000000000 := by decide
  interval_cases k
  · cases hA : answer 1 with
    | failure err =>
      simp [importWithRetry, retryLoop, maxRetries, hA, attemptCount, sleepsOf]
    | response resp =>
      have := hlast resp hA
      simp [importWithRetry, retryLoop, maxRetries, hA, attemptCount, sleepsOf, this]
  · obtain ⟨r1, h1, c1⟩ := h429 1 (by omega) (by omega)
    cases hA : answer 2 with
    | failure err =>
      simp [importWithRetry, retryLoop, maxRetries, hA, attemptCount, sleepsOf, h1, c1,
        w1, w2, w3, w4, List.range_succ, second]
    | response resp =>
      have := hlast resp hA
      simp [importWithRetry, retryLoop, maxRetries, hA, attemptCount, sleepsOf, h1, c1,
        w1, w2, w3, w4, List.range_succ, second, this]
  · obtain ⟨r1, h1, c1⟩ := h429 1 (by omega) (by omega)
    obtain ⟨r2, h2, c2⟩ := h429 2 (by omega) (by omega)
    cases hA : answer 3 with
    | failure err =>
      simp [importWithRetry, retryLoop, maxRetries, hA, attemptCount, sleepsOf, h1, c1, h2, c2,
        w1, w2, w3, w4, List.range_succ, second]
    | response resp =>
      have := hlast resp hA
      simp [importWithRetry, retryLoop, maxRetries, hA, attemptCount, sleepsOf, h1, c1, h2, c2,
        w1, w2, w3, w4, List.range_succ, second, this]
  · obtain ⟨r1, h1, c1⟩ := h429 1 (by omega) (by omega)
    obtain ⟨r2, h2, c2⟩ := h429 2 (by omega) (by omega)
    obtain ⟨r3, h3, c3⟩ := h429 3 (by omega) (by omega)
    cases hA : answer 4 with
    | failure err =>
      simp [importWithRetry, retryLoop, maxRetries, hA, attemptCount, sleepsOf, h1, c1, h2, c2, h3, c3,
        w1, w2, w3, w4, List.range_succ, second]
    | response resp =>
      have := hlast resp hA
      simp [importWithRetry, retryLoop, maxRetries, hA, attemptCount, sleepsOf, h1, c1, h2, c2, h3, c3,
        w1, w2, w3, w4, List.range_succ, second, this]
  · obtain ⟨r1, h1, c1⟩ := h429 1 (by omega) (by omega)
    obtain ⟨r2, h2, c2⟩ := h429 2 (by omega) (by omega)
    obtain ⟨r3, h3, c3⟩ := h429 3 (by omega) (by omega)
    obtain ⟨r4, h4, c4⟩ := h429 4 (by omega) (by omega)
    cases hA : answer 5 with
    | failure err =>
      simp [importWithRetry, retryLoop, maxRetries, hA, attemptCount, sleepsOf, h1, c1, h2, c2, h3, c3, h4, c4,
        w1, w2, w3, w4, List.range_succ, second]
    | response resp =>
      have := hlast resp hA
      simp [importWithRetry, retryLoop, maxRetries, hA, attemptCount, sleepsOf, h1, c1, h2, c2, h3, c3, h4, c4,
        w1, w2, w3, w4, List.range_succ, second, this]

theorem retry_stops_at_first_other_outcome_witness :
    attemptCount (importWithRetry twice429Then500).trace = 2 + 1 ∧
      sleepsOf (importWithRetry twice429Then500).trace
        = (List.range 2).map (fun i => 10 * second * 2 ^ i) ∧
      (∀ resp, twice429Then500 (2 + 1) = DoResult.response resp →
        (importWithRetry twice429Then500).result = Except.ok resp) ∧
      ∀ err, twice429Then500 (2 + 1) = DoResult.failure err →
        (importWithRetry twice429Then500).result
            = Except.error (RetryError.attemptFailed (2 + 1) err) ∧
          (importWithRetry twice429Then500).result ≠ Except.error RetryError.tooMany429 :=
  retry_stops_at_first_other_outcome twice429Then500 2 (by decide)
    (by
      intro i h1 h2
      interval_cases i
      · exact ⟨_, rfl, rfl⟩
      · exact ⟨_, rfl, rfl⟩)
    (by
      intro resp h
      have : resp = ⟨500, "oops"⟩ := by
        simp only [twice429Then500] at h
        exact (DoResult.response.inj h).symm
      rw [this]
      decide)

/-! ## Claims about the project pipeline -/

theorem pollLoop_error (env : Pipeline) (project : Int) :
    ∀ (n fuel m : Nat) (tr : List Step),
      (∀ i, i < n → ∃ st, env.exportStatus (m + i) project = some st ∧ st ≠ "finished") →
      env.exportStatus (m + n) project = none → n < fuel →
      pollLoop env project fuel m tr =
        Outcome.done (some ProjectError.statusCheck,
          tr ++ (List.replicate n [Step.poll project, Step.sleep second]).flatten
            ++ [Step.poll project]) := by
  intro n
  induction n with
  | zero =>
    intro fuel m tr _ herr hfuel
    obtain ⟨f, rfl⟩ : ∃ f, fuel = f + 1 := ⟨fuel - 1, by omega⟩
    simp only [Nat.add_zero] at herr
    simp [pollLoop, herr]
  | succ n ih =>
    intro fuel m tr hwait herr hfuel
    obtain ⟨f, rfl⟩ : ∃ f, fuel = f + 1 := ⟨fuel - 1, by omega⟩
    obtain ⟨st, hst, hne⟩ := hwait 0 (by omega)
    simp only [Nat.add_zero] at hst
    have h2 := ih f (m + 1) (tr ++ [Step.poll project, Step.sleep second])
      (fun i hi => by
        obtain ⟨st2, h, hn⟩ := hwait (i + 1) (by omega)
        have e : m + 1 + i = m + (i + 1) := by omega
        exact ⟨st2, by rw [e]; exact h, hn⟩)
      (by
        have e : m + 1 + n = m + (n + 1) := by omega
        rw [e]
        exact herr) (by omega)
    simp only [pollLoop, hst, hne, if_false]
    rw [h2]
    simp [List.replicate_succ]

/-- C5, as stated, fails: a poll that reports the status `failed` does not
abort `importProject`; it sleeps one second, polls again, and here, the next
poll reporting `finished`, downloads the export, submits the import and
returns no error. -/
theorem failed_status_is_polled_again :
    importProject failedThenFinished sampleProject 7 2 =
      Outcome.done (none,
        [Step.getGroup 7, Step.scheduleExport 11, Step.poll 11, Step.sleep second,
         Step.poll 11, Step.download 11, Step.createTemp, Step.writeTemp, Step.openTemp,
         Step.form "app" "app" "ramooz", Step.send (RetryEvent.attempt 1),
         Step.closeBody, Step.closeFile, Step.closeTemp, Step.removeTemp]) := by
  rfl

/-- C5, amended: when the target group resolves and the export is scheduled,
the first `n` polls report statuses other than `finished` (`failed` among
them or not) and poll `n + 1` returns a status-check error, `importProject`
returns the status-check error after exactly `n + 1` polls, one second apart:
it polls no more, downloads nothing and submits no import. -/
theorem status_error_aborts_project (env : Pipeline) (project : Project)
    (targetGroupID : Int) (fuel n : Nat) (tg : Group)
    (hgrp : env.getTargetGroup targetGroupID = some tg)
    (hsch : env.scheduleExport project.ID = true)
    (hwait : ∀ i, i < n → ∃ st, env.exportStatus i project.ID = some st ∧ st ≠ "finished")
    (herr : env.exportStatus n project.ID = none) (hfuel : n < fuel) :
    ∃ tr, importProject env project targetGroupID fuel
        = Outcome.done (some ProjectError.statusCheck, tr) ∧
      tr = [Step.getGroup targetGroupID, Step.scheduleExport project.ID]
        ++ (List.replicate n [Step.poll project.ID, Step.sleep second]).flatten
        ++ [Step.poll project.ID] ∧
      tr.count (Step.poll project.ID) = n + 1 ∧
      Step.download project.ID ∉ tr ∧ ∀ e, Step.send e ∉ tr := by
  have hp := pollLoop_error env project.ID n fuel 0
    [Step.getGroup targetGroupID, Step.scheduleExport project.ID]
    (fun i hi => by simpa using hwait i hi) (by simpa using herr) hfuel
  refine ⟨_, ?_, rfl, ?_, ?_, ?_⟩
  · simp only [importProject, hgrp, hsch, hp]
    rfl
  · have : ∀ k : Nat, (List.replicate k [Step.poll project.ID, Step.sleep second]).flatten.count
        (Step.poll project.ID) = k := by
      intro k
      induction k with
      | zero => simp
      | succ k ih => simp [List.replicate_succ, ih, List.count_cons]
    simp [List.count_append, this, List.count_cons]
  · simp [List.mem_flatten, List.mem_replicate]
  · simp [List.mem_flatten, List.mem_replicate]

theorem status_error_aborts_project_witness :
    ∃ tr, importProject errorAtThirdPoll sampleProject 7 3
        = Outcome.done (some ProjectError.statusCheck, tr) ∧
      tr = [Step.getGroup 7, Step.scheduleExport sampleProject.ID]
        ++ (List.replicate 2 [Step.poll sampleProject.ID, Step.sleep second]).flatten
        ++ [Step.poll sampleProject.ID] ∧
      tr.count (Step.poll sampleProject.ID) = 2 + 1 ∧
      Step.download sampleProject.ID ∉ tr ∧ ∀ e, Step.send e ∉ tr :=
  status_error_aborts_project errorAtThirdPoll sampleProject 7 3 2 sampleRootGroup rfl rfl
    (by
      intro i hi
      interval_cases i
      · exact ⟨"started", rfl, by decide⟩
      · exact ⟨"failed", rfl, by decide⟩)
    rfl (by decide)

/-! ## Claims about the project loop of `main` -/

theorem importLoop_some (svc : Services) (g : Group) (tg : targetGroupSt) :
    ∀ (ps : List Project) (tr : List MainEvent),
      ∃ k, k ≤ ps.length ∧
        (importLoop svc g (some tg) ps tr).1
          = tr ++ (ps.take k).map (fun p => MainEvent.importCall g p tg.ID) ∧
        ((importLoop svc g (some tg) ps tr).2 = LoopEnd.finished → k = ps.length) ∧
        ((∀ n p t, svc.importProject n p t ≠ none) →
          (importLoop svc g (some tg) ps tr).2 = LoopEnd.finished) ∧
        (importLoop svc g (some tg) ps tr).2 ≠ LoopEnd.nilDeref := by
  intro ps
  induction ps with
  | nil =>
    intro tr
    exact ⟨0, Nat.le_refl _, by simp [importLoop], fun _ => rfl, fun _ => rfl,
      by simp [importLoop]⟩
  | cons p rest ih =>
    intro tr
    cases hc : svc.importProject tr.length p tg.ID with
    | none =>
      refine ⟨1, by simp, ?_, ?_, ?_, ?_⟩
      · simp [importLoop, hc]
      · simp [importLoop, hc]
      · intro himp
        exact absurd hc (himp _ _ _)
      · simp [importLoop, hc]
    | some ok =>
      obtain ⟨k, hk, htr, hfin, htot, hnil⟩ :=
        ih (tr ++ [MainEvent.importCall g p tg.ID])
      have heq : importLoop svc g (some tg) (p :: rest) tr
          = importLoop svc g (some tg) rest (tr ++ [MainEvent.importCall g p tg.ID]) := by
        simp [importLoop, hc]
      rw [heq]
      refine ⟨k + 1, by simp; omega, ?_, ?_, htot, hnil⟩
      · rw [htr]
        simp
      · intro h
        simp [hfin h]

theorem getElem_length_append (tr : List MainEvent) (a : MainEvent) (rest : List MainEvent) :
    (tr ++ a :: rest)[tr.length]? = some a := by
  rw [List.getElem?_append_right (Nat.le_refl _)]
  simp

/-- One source group is done with after the calls `b`, and the loop goes on. -/
theorem projectLoop_continue (svc : Services) (groupMap : GroupMap) (g : Group)
    (rest : List Group) (tr b : List MainEvent)
    (heq : projectLoop svc groupMap (g :: rest) tr = projectLoop svc groupMap rest (tr ++ b))
    (hb : BlockOf svc groupMap tr.length g b)
    (himps : ∀ g2 p t, MainEvent.importCall g2 p t ∈ b →
      g2 = g ∧ (∃ tg, groupMap g.ID = some (some tg) ∧ t = tg.ID) ∧
        b.head? = some (MainEvent.listCall g) ∧ p ∈ listing svc tr.length g.ID)
    (hlists : ∀ g2, MainEvent.listCall g2 ∈ b → g2 = g ∧ groupMap g.ID ≠ none)
    (ih : LoopSpec svc groupMap rest (tr ++ b)) :
    LoopSpec svc groupMap (g :: rest) tr := by
  obtain ⟨ext, htr, himp2, hlist2, hfin, htot⟩ := ih
  unfold LoopSpec
  rw [heq]
  refine ⟨b ++ ext, by rw [htr, List.append_assoc], ?_, ?_, ?_, ?_⟩
  · intro g2 p t he
    rcases List.mem_append.mp he with he | he
    · obtain ⟨rfl, htg, hhead, hp⟩ := himps g2 p t he
      refine ⟨List.mem_cons_self _ _, htg, tr.length, ?_, hp⟩
      rw [htr]
      cases b with
      | nil => simp at he
      | cons a b2 =>
        simp only [List.head?_cons, Option.some.injEq] at hhead
        subst hhead
        rw [List.append_assoc, List.cons_append]
        exact getElem_length_append _ _ _
    · obtain ⟨hm, htg, n, hn, hp⟩ := himp2 g2 p t he
      exact ⟨List.mem_cons_of_mem _ hm, htg, n, hn, hp⟩
  · intro g2 he
    rcases List.mem_append.mp he with he | he
    · obtain ⟨rfl, hne⟩ := hlists g2 he
      exact ⟨List.mem_cons_self _ _, hne⟩
    · obtain ⟨hm, hne⟩ := hlist2 g2 he
      exact ⟨List.mem_cons_of_mem _ hm, hne⟩
  · intro h
    obtain ⟨blocks, hext, hbl⟩ := hfin h
    refine ⟨b :: blocks, by rw [hext, List.flatten_cons], ?_⟩
    simp only [Blocks]
    refine ⟨hb, ?_⟩
    rw [List.length_append] at hbl
    exact hbl
  · intro h1 h2 h3
    exact htot h1 h2 (fun x hx => h3 x (List.mem_cons_of_mem _ hx))

/-- The loop stops in the source group `g` after the calls `b`. -/
theorem projectLoop_stop (svc : Services) (groupMap : GroupMap) (g : Group)
    (rest : List Group) (tr b : List MainEvent) (e : LoopEnd)
    (heq : projectLoop svc groupMap (g :: rest) tr = (tr ++ b, e))
    (he : e ≠ LoopEnd.finished)
    (himps : ∀ g2 p t, MainEvent.importCall g2 p t ∈ b →
      g2 = g ∧ (∃ tg, groupMap g.ID = some (some tg) ∧ t = tg.ID) ∧
        b.head? = some (MainEvent.listCall g) ∧ p ∈ listing svc tr.length g.ID)
    (hlists : ∀ g2, MainEvent.listCall g2 ∈ b → g2 = g ∧ groupMap g.ID ≠ none)
    (hstop : (∀ n gid, svc.getGroupProjects n gid ≠ none) →
      (∀ n p t, svc.importProject n p t ≠ none) → groupMap g.ID ≠ some none → False) :
    LoopSpec svc groupMap (g :: rest) tr := by
  unfold LoopSpec
  rw [heq]
  refine ⟨b, rfl, ?_, ?_, fun h => absurd h he, ?_⟩
  · intro g2 p t hev
    obtain ⟨rfl, htg, hhead, hp⟩ := himps g2 p t hev
    refine ⟨List.mem_cons_self _ _, htg, tr.length, ?_, hp⟩
    cases b with
    | nil => simp at hev
    | cons a b2 =>
      simp only [List.head?_cons, Option.some.injEq] at hhead
      subst hhead
      exact getElem_length_append _ _ _
  · intro g2 hev
    obtain ⟨rfl, hne⟩ := hlists g2 hev
    exact ⟨List.mem_cons_self _ _, hne⟩
  · intro h1 h2 h3
    exact (hstop h1 h2 (h3 g (List.mem_cons_self _ _))).elim

theorem projectLoop_spec (svc : Services) (groupMap : GroupMap) :
    ∀ (L : List Group) (tr : List MainEvent), LoopSpec svc groupMap L tr := by
  intro L
  induction L with
  | nil =>
    intro tr
    exact ⟨[], by simp [projectLoop], by simp, by simp,
      fun _ => ⟨[], rfl, by simp [Blocks]⟩, fun _ _ _ => rfl⟩
  | cons g rest ih =>
    intro tr
    have hnoimp : ∀ g2 p t, MainEvent.importCall g2 p t ∈ [MainEvent.listCall g] →
        g2 = g ∧ (∃ tg, groupMap g.ID = some (some tg) ∧ t = tg.ID) ∧
          [MainEvent.listCall g].head? = some (MainEvent.listCall g) ∧
          p ∈ listing svc tr.length g.ID := by
      intro g2 p t h
      simp at h
    cases hm : groupMap g.ID with
    | none =>
      refine projectLoop_continue svc groupMap g rest tr [] ?_ ?_ (by simp) (by simp) ?_
      · simp [projectLoop, isPersonalNamespace, hm]
      · simp [BlockOf, hm]
      · simpa using ih tr
    | some ptr =>
      have hlists : ∀ g2, MainEvent.listCall g2 ∈ [MainEvent.listCall g] →
          g2 = g ∧ groupMap g.ID ≠ none := by
        intro g2 h
        simp only [List.mem_singleton, MainEvent.listCall.injEq] at h
        exact ⟨h, by rw [hm]; exact Option.some_ne_none _⟩
      cases hl : svc.getGroupProjects tr.length g.ID with
      | none =>
        refine projectLoop_stop svc groupMap g rest tr [MainEvent.listCall g] LoopEnd.stuck
          ?_ (by decide) hnoimp hlists (fun h1 _ _ => h1 _ _ hl)
        simp [projectLoop, isPersonalNamespace, hm, hl]
      | some res =>
        have hlisting : listing svc tr.length g.ID = res.getD [] := by
          simp only [listing, hl]
          cases res <;> rfl
        cases res with
        | none =>
          refine projectLoop_continue svc groupMap g rest tr [MainEvent.listCall g] ?_ ?_
            hnoimp hlists (ih _)
          · simp [projectLoop, isPersonalNamespace, hm, hl]
          · cases ptr with
            | none => simp [BlockOf, hm, hlisting]
            | some tg => simp [BlockOf, hm, hlisting]
        | some ps =>
          cases ptr with
          | none =>
            cases ps with
            | nil =>
              refine projectLoop_continue svc groupMap g rest tr [MainEvent.listCall g] ?_ ?_
                hnoimp hlists (ih _)
              · simp [projectLoop, isPersonalNamespace, hm, hl, importLoop]
              · simp [BlockOf, hm, hlisting]
            | cons p ps2 =>
              refine projectLoop_stop svc groupMap g rest tr [MainEvent.listCall g]
                LoopEnd.nilDeref ?_ (by decide) hnoimp hlists (fun _ _ h3 => h3 hm)
              simp [projectLoop, isPersonalNamespace, hm, hl, importLoop]
          | some tg =>
            obtain ⟨k, _, htr, hfin, htot, hnil⟩ :=
              importLoop_some svc g tg ps (tr ++ [MainEvent.listCall g])
            have hsafe : ∀ g2 p t, MainEvent.importCall g2 p t ∈
                MainEvent.listCall g ::
                  (ps.take k).map (fun p => MainEvent.importCall g p tg.ID) →
                g2 = g ∧ (∃ tg2, groupMap g.ID = some (some tg2) ∧ t = tg2.ID) ∧
                  (MainEvent.listCall g ::
                    (ps.take k).map (fun p => MainEvent.importCall g p tg.ID)).head?
                      = some (MainEvent.listCall g) ∧
                  p ∈ listing svc tr.length g.ID := by
              intro g2 p t h
              simp only [List.mem_cons, reduceCtorEq, List.mem_map, MainEvent.importCall.injEq,
                false_or] at h
              obtain ⟨q, hq, rfl, rfl, rfl⟩ := h
              refine ⟨rfl, ⟨tg, hm, rfl⟩, rfl, ?_⟩
              rw [hlisting]
              exact List.mem_of_mem_take hq
            have hls : ∀ g2, MainEvent.listCall g2 ∈
                MainEvent.listCall g ::
                  (ps.take k).map (fun p => MainEvent.importCall g p tg.ID) →
                g2 = g ∧ groupMap g.ID ≠ none := by
              intro g2 h
              simp only [List.mem_cons, MainEvent.listCall.injEq, List.mem_map, reduceCtorEq,
                and_false, exists_false, or_false] at h
              exact ⟨h, by rw [hm]; exact Option.some_ne_none _⟩
            cases hil : importLoop svc g (some tg) ps (tr ++ [MainEvent.listCall g]) with
            | mk tr2 e =>
              rw [hil] at htr hfin htot hnil
              simp only at htr hfin htot hnil
              have htr2 : tr2 = tr ++ (MainEvent.listCall g ::
                  (ps.take k).map (fun p => MainEvent.importCall g p tg.ID)) := by
                rw [htr]
                simp
              cases e with
              | finished =>
                have hk : k = ps.length := hfin rfl
                rw [hk, List.take_length] at htr2 hsafe hls
                refine projectLoop_continue svc groupMap g rest tr _ ?_ ?_ hsafe hls (ih _)
                · simp [projectLoop, isPersonalNamespace, hm, hl, hil, htr2]
                · simp [BlockOf, hm, hlisting]
              | nilDeref => exact absurd rfl hnil
              | stuck =>
                refine projectLoop_stop svc groupMap g rest tr _ LoopEnd.stuck ?_ (by decide)
                  hsafe hls (fun _ h2 _ => ?_)
                · simp [projectLoop, isPersonalNamespace, hm, hl, hil, htr2]
                · exact absurd (htot h2) (by decide)

theorem pollLoop_stalled (project : Int) :
    ∀ (fuel n : Nat) (tr : List Step),
      pollLoop stalledPipeline project fuel n tr = Outcome.outOfFuel := by
  intro fuel
  induction fuel with
  | zero => intro n tr; rfl
  | succ f ih =>
    intro n tr
    have hne : ¬ ("started" = "finished") := by decide
    simp only [pollLoop, stalledPipeline, hne, if_false]
    exact ih _ _

/-- The function `importProject` does not return while the export status never
becomes `finished`: whatever the number of polls allowed, polling is still
going on. -/
theorem stalled_export_never_returns (fuel : Nat) :
    importProject stalledPipeline sampleProject 100 fuel = Outcome.outOfFuel := by
  have h := pollLoop_stalled sampleProject.ID fuel 0
    [Step.getGroup 100, Step.scheduleExport sampleProject.ID]
  simp only [importProject, stalledPipeline] at h ⊢
  simp only [Bool.not_true, Bool.false_eq_true, if_false]
  rw [h]

/-- C6, as stated, fails: the mapping has an entry for the source group
`groupOther` and `getGroupProjects` lists two projects under it, but the
`importProject` call for the first project does not return (the export never
finishes), so `importProject` is never called for the second project. -/
theorem stuck_import_blocks_later_projects :
    projectLoop stuckServices sampleMap [groupOther] [] =
        ([MainEvent.listCall groupOther,
          MainEvent.importCall groupOther sampleProject 100], LoopEnd.stuck) ∧
      sampleMap groupOther.ID = some (some ⟨100, groupOther⟩) ∧
      listing stuckServices 0 groupOther.ID = [sampleProject, sampleProject2] ∧
      (∀ t, MainEvent.importCall groupOther sampleProject2 t ∉
        (projectLoop stuckServices sampleMap [groupOther] []).1) :=
  ⟨rfl, by decide, by decide, by
    intro t h
    have e : (projectLoop stuckServices sampleMap [groupOther] []).1 =
        [MainEvent.listCall groupOther,
          MainEvent.importCall groupOther sampleProject 100] := rfl
    rw [e] at h
    simp [sampleProject, sampleProject2] at h⟩

/-- C6, amended: in the project loop of `main`, whatever `getGroupProjects`
and `importProject` answer and however the loop ends, every `importProject`
call is for a project that a `getGroupProjects` call of the loop listed under
a source group with a mapping entry, and carries the target id stored in that
entry (never a default); a source group without entry is neither listed nor
imported from.  When the loop runs to its end, its calls are, source group by
source group in list order, nothing for a group without entry and otherwise
the listing call followed by exactly one `importProject` call per listed
project.  The loop runs to its end when every call returns and no entry of a
source group is a nil pointer. -/
theorem projects_follow_mapping (svc : Services) (groupMap : GroupMap)
    (sourceGroups : List Group) :
    (∀ g p t, MainEvent.importCall g p t ∈ (projectLoop svc groupMap sourceGroups []).1 →
      g ∈ sourceGroups ∧ (∃ tg, groupMap g.ID = some (some tg) ∧ t = tg.ID) ∧
        ∃ n, (projectLoop svc groupMap sourceGroups []).1[n]?
            = some (MainEvent.listCall g) ∧
          p ∈ listing svc n g.ID) ∧
    (∀ g, groupMap g.ID = none →
      MainEvent.listCall g ∉ (projectLoop svc groupMap sourceGroups []).1 ∧
        ∀ p t, MainEvent.importCall g p t ∉ (projectLoop svc groupMap sourceGroups []).1) ∧
    ((projectLoop svc groupMap sourceGroups []).2 = LoopEnd.finished →
      ∃ blocks, (projectLoop svc groupMap sourceGroups []).1 = blocks.flatten ∧
        Blocks svc groupMap 0 sourceGroups blocks) ∧
    ((∀ n gid, svc.getGroupProjects n gid ≠ none) →
      (∀ n p t, svc.importProject n p t ≠ none) →
      (∀ g ∈ sourceGroups, groupMap g.ID ≠ some none) →
      (projectLoop svc groupMap sourceGroups []).2 = LoopEnd.finished) := by
  obtain ⟨ext, htr, himp, hlist, hfin, htot⟩ := projectLoop_spec svc groupMap sourceGroups []
  rw [List.nil_append] at htr
  rw [htr]
  rw [htr] at himp
  refine ⟨himp, ?_, ?_, htot⟩
  · intro g hg
    refine ⟨fun h => (hlist g h).2 hg, fun p t h => ?_⟩
    obtain ⟨_, ⟨tg, htg, _⟩, _⟩ := himp g p t h
    rw [hg] at htg
    exact Option.noConfusion htg
  · intro h
    obtain ⟨blocks, hb, hbl⟩ := hfin h
    exact ⟨blocks, hb, hbl⟩

theorem projects_follow_mapping_witness :
    (projectLoop sampleServices sampleMap [groupOther, groupBad] []).2 = LoopEnd.finished ∧
      (projectLoop sampleServices sampleMap [groupOther, groupBad] []).1 =
        [MainEvent.listCall groupOther,
         MainEvent.importCall groupOther sampleProject 100,
         MainEvent.importCall groupOther sampleProject2 100] ∧
      ∃ blocks, (projectLoop sampleServices sampleMap [groupOther, groupBad] []).1
          = blocks.flatten ∧
        Blocks sampleServices sampleMap 0 [groupOther, groupBad] blocks := by
  have h := projects_follow_mapping sampleServices sampleMap [groupOther, groupBad]
  have hfin := h.2.2.2 (fun _ _ e => Option.noConfusion e) (fun _ _ _ e => Option.noConfusion e)
    (by decide)
  exact ⟨hfin, by decide, h.2.2.1 hfin⟩

end Migrate
